import Mathlib

/-!
Verification of the numpyro ELBO estimators (`src/numpyro/infer/elbo.py`)
against their natural-language specification.

The estimator logic is embedded shallowly:

* tensors (`jax.numpy` arrays) are modelled by the nested inductive `JTensor`
  with rational entries; `jnp.sum(·, axis, keepdims=True)`, `squeeze`,
  broadcasting addition/multiplication and full reduction are modelled by
  executable functions below;
* traces are ordered association lists from site names to site records;
* external collaborators (tracing/seeding handlers, `compute_log_probs`,
  `kl_divergence`, `jax.random.split`) are either taken as function
  parameters or, where a claim depends on their behaviour, modelled from the
  spec (each such definition carries a doc comment starting with
  `Modelled from the spec:`);
* fallible Python code (`raise`, `assert`, KeyError/IndexError) is modelled
  with `Option`/`Except`.
-/

namespace NumpyroElbo

/-- Tensors of `jax.numpy`: a rational scalar or a list of sub-tensors
(one entry per index of the leading axis).  Rectangularity is not enforced
by the type; the functions below implement exactly the shape discipline of
the `jnp` operations used in `elbo.py`. -/
inductive JTensor where
  | s (x : ℚ)
  | a (ts : List JTensor)

namespace JTensor

/-- Rank (`jnp.ndim`), read off the leading spine (first element). -/
def rank : JTensor → Nat
  | .s _ => 0
  | .a [] => 1
  | .a (t :: _) => 1 + rank t

/-- Shape (`jnp.shape`), read off the leading spine. -/
def shape : JTensor → List Nat
  | .s _ => []
  | .a [] => [0]
  | .a (t :: ts) => (ts.length + 1) :: shape t

mutual

/-- Total reduction `jnp.sum(t)` over all axes. -/
def totalSum : JTensor → ℚ
  | .s x => x
  | .a ts => totalSumList ts

def totalSumList : List JTensor → ℚ
  | [] => 0
  | t :: ts => totalSum t + totalSumList ts

end

mutual

/-- Scalar multiplication (broadcasting a scalar over a tensor). -/
def smul (c : ℚ) : JTensor → JTensor
  | .s x => .s (c * x)
  | .a ts => .a (smulList c ts)

def smulList (c : ℚ) : List JTensor → List JTensor
  | [] => []
  | t :: ts => smul c t :: smulList c ts

end

/-- Pointwise negation of a tensor. -/
def tneg (t : JTensor) : JTensor := smul (-1) t

mutual

/-- Pointwise addition of two same-shape tensors (used for reductions along
one axis; on ill-shaped input it keeps the left operand's spine). -/
def tadd : JTensor → JTensor → JTensor
  | .s x, .s y => .s (x + y)
  | .a ts, .a us => .a (taddList ts us)
  | t, _ => t

def taddList : List JTensor → List JTensor → List JTensor
  | t :: ts, u :: us => tadd t u :: taddList ts us
  | _, _ => []

end

/-- Sum of a list of same-shape tensors (the pointwise reduction performed
by `jnp.sum` along one axis).  An empty axis reduces to the scalar `0`;
`elbo.py` never reduces an empty axis on well-formed traces. -/
def foldAdd : List JTensor → JTensor
  | [] => .s 0
  | [t] => t
  | t :: ts => tadd t (foldAdd ts)

mutual

/-- Reduction `jnp.sum(t, axis=d, keepdims=True)` for a nonnegative axis
index `d` (out-of-range axes leave the tensor unchanged; `elbo.py` guards
axis indices with assertions, modelled separately). -/
def sumAxis : Nat → JTensor → JTensor
  | 0, .a ts => .a [foldAdd ts]
  | d + 1, .a ts => .a (sumAxisList d ts)
  | _, .s x => .s x

def sumAxisList : Nat → List JTensor → List JTensor
  | _, [] => []
  | d, t :: ts => sumAxis d t :: sumAxisList d ts

end

/-- Reduction `value.sum(dim, keepdims=True)` for a negative (right-aligned)
axis index, as used with plate dimensions: axis `ndim + dim`. -/
def sumAxisNeg (d : Int) (t : JTensor) : JTensor :=
  sumAxis ((rank t : Int) + d).toNat t

/-- Python `jnp.shape(value)[d]` for a negative index `d`:
`none` models the IndexError raised on an out-of-range index. -/
def shapeAtNeg (t : JTensor) (d : Int) : Option Nat :=
  (shape t).get? ((rank t : Int) + d).toNat

/-- Loop `while jnp.shape(value) and jnp.shape(value)[0] == 1: value =
value.squeeze(0)` of `MultiFrameTensor.sum_to`: strips every leading
axis of size one. -/
def squeezeLead : JTensor → JTensor
  | .a [t] => squeezeLead t
  | t => t

/-- Property checked for claim C10: the tensor has no leading axis of
size one (scalars count as having none). -/
def hasNoLeadOne : JTensor → Bool
  | .s _ => true
  | .a ts => ts.length != 1

mutual

/-- Broadcasting binary operation of `jax.numpy` (covers `+` and `*` on
possibly differently-shaped operands): align trailing axes; an axis of
size one or a missing leading axis broadcasts; incompatible shapes give
`none` (the error raised by jax). -/
def bop (f : ℚ → ℚ → ℚ) : JTensor → JTensor → Option JTensor
  | .s x, .s y => some (.s (f x y))
  | .s x, .a us => (bopLeft f (.s x) us).map .a
  | .a ts, .s y => (bopRight f ts (.s y)).map .a
  | .a ts, .a us => bopArr f ts us
termination_by a b => (sizeOf a + sizeOf b, 2)

def bopArr (f : ℚ → ℚ → ℚ) (ts us : List JTensor) : Option JTensor :=
  if rank (.a ts) < rank (.a us) then (bopLeft f (.a ts) us).map .a
  else if rank (.a us) < rank (.a ts) then (bopRight f ts (.a us)).map .a
  else if ts.length = us.length then (bopZip f ts us).map .a
  else
    match ts, us with
    | [t], us => (bopLeft f t us).map .a
    | ts, [u] => (bopRight f ts u).map .a
    | _, _ => none
termination_by (sizeOf (JTensor.a ts) + sizeOf (JTensor.a us), 1)

def bopLeft (f : ℚ → ℚ → ℚ) (t : JTensor) : List JTensor → Option (List JTensor)
  | [] => some []
  | u :: us =>
    match bop f t u, bopLeft f t us with
    | some r, some rs => some (r :: rs)
    | _, _ => none
termination_by l => (sizeOf t + sizeOf l, 0)

def bopRight (f : ℚ → ℚ → ℚ) : List JTensor → JTensor → Option (List JTensor)
  | [], _ => some []
  | t :: ts, u =>
    match bop f t u, bopRight f ts u with
    | some r, some rs => some (r :: rs)
    | _, _ => none
termination_by l u => (sizeOf l + sizeOf u, 0)

def bopZip (f : ℚ → ℚ → ℚ) : List JTensor → List JTensor → Option (List JTensor)
  | [], [] => some []
  | t :: ts, u :: us =>
    match bop f t u, bopZip f ts us with
    | some r, some rs => some (r :: rs)
    | _, _ => none
  | _, _ => none
termination_by l1 l2 => (sizeOf l1 + sizeOf l2, 0)

end

/-- Broadcasting addition `total + value`. -/
def badd : JTensor → JTensor → Option JTensor := bop (· + ·)

/-- Broadcasting multiplication `a * b`. -/
def bmul : JTensor → JTensor → Option JTensor := bop (· * ·)

end JTensor

open JTensor

/-- Plate context frame (`CondIndepStackFrame` of `numpyro.handlers`): a
name, a (negative, right-aligned) batch dimension index and a size. -/
structure Frame where
  name : String
  dim : Int
  size : Nat
deriving DecidableEq

/-- Assertion of `MultiFrameTensor.add` on one frame:
`f.dim < 0 and -jnp.ndim(value) <= f.dim`. -/
def frameOkB (v : JTensor) (f : Frame) : Bool :=
  decide (f.dim < 0) && decide (-(rank v : Int) ≤ f.dim)

/-- State of a `MultiFrameTensor`: an insertion-ordered association list
from frame sets (`frozenset`s, kept as duplicate-free lists; the
`cond_indep_stack` lists that key them have a canonical order) to
accumulated tensors. -/
abbrev MFT := List (List Frame × JTensor)

/-- Update of an existing key of a `MultiFrameTensor` (dict assignment). -/
def mftSet : MFT → List Frame → JTensor → MFT
  | [], _, _ => []
  | (k, w) :: rest, key, v =>
    if k = key then (k, v) :: rest else (k, w) :: mftSet rest key v

/-- Method `MultiFrameTensor.add` for one `(cond_indep_stack, tensor)` pair:
key the tensor by the `frozenset` of its frames, assert every frame
dimension is negative and within the tensor's rank (a failed `assert` is
`none`), and accumulate with `+` on an existing key. -/
def mftAdd (m : MFT) (stack : List Frame) (v : JTensor) : Option MFT :=
  let key := stack.dedup
  if key.all (frameOkB v) then
    match m.lookup key with
    | some w => (badd w v).map (fun sum => mftSet m key sum)
    | none => some (m ++ [(key, v)])
  else none

/-- Body of the `for f in frames` loop of `MultiFrameTensor.sum_to`:
`if f not in target_frames and jnp.shape(value)[f.dim] != 1: value =
value.sum(f.dim, keepdims=True)` (an out-of-range shape index is the
IndexError `none`). -/
def reduceStep (target : List Frame) (v : JTensor) (f : Frame) : Option JTensor :=
  if f ∈ target then some v
  else
    match shapeAtNeg v f.dim with
    | none => none
    | some n => if n = 1 then some v else some (sumAxisNeg f.dim v)

/-- Frame-reduction loop of `sum_to` over one stored entry. -/
def reduceFrames (target : List Frame) : List Frame → JTensor → Option JTensor
  | [], v => some v
  | f :: fs, v =>
    match reduceStep target v f with
    | none => none
    | some w => reduceFrames target fs w

/-- Per-entry work of `sum_to`: reduce the frames absent from the target,
then strip leading axes of size one. -/
def processEntry (target : List Frame) (e : List Frame × JTensor) : Option JTensor :=
  match reduceFrames target e.1 e.2 with
  | none => none
  | some v => some (squeezeLead v)

/-- Accumulation loop of `sum_to`: `total = value if total is None else
total + value` (broadcasting `+`). -/
def sumToAux (target : List Frame) : MFT → Option JTensor → Option (Option JTensor)
  | [], total => some total
  | e :: es, total =>
    match processEntry target e with
    | none => none
    | some v =>
      match total with
      | none => sumToAux target es (some v)
      | some t =>
        match badd t v with
        | none => none
        | some t' => sumToAux target es (some t')

/-- Method `MultiFrameTensor.sum_to(target_frames)`: reduce every stored
tensor over its frames absent from the target, squeeze leading unit axes,
add the results, and return the scalar `0.0` on an empty container. -/
def sumTo (m : MFT) (target : List Frame) : Option JTensor :=
  match sumToAux target m none with
  | none => none
  | some none => some (.s 0)
  | some (some t) => some t

theorem squeezeLead_noLeadOne (t : JTensor) : hasNoLeadOne (squeezeLead t) = true := by
  induction t using squeezeLead.induct with
  | case1 u ih => simpa [squeezeLead] using ih
  | case2 t h =>
    match t, h with
    | .s x, _ => simp [squeezeLead, hasNoLeadOne]
    | .a [], _ => simp [squeezeLead, hasNoLeadOne]
    | .a [u], h => exact absurd rfl (h u)
    | .a (u1 :: u2 :: us), _ => simp [squeezeLead, hasNoLeadOne]

theorem bopLeft_length (f : ℚ → ℚ → ℚ) (t : JTensor) :
    ∀ us rs, bopLeft f t us = some rs → rs.length = us.length := by
  intro us
  induction us with
  | nil => intro rs h; simp [bopLeft] at h; simp [← h]
  | cons u us ih =>
    intro rs h
    cases hb : bop f t u with
    | none => simp [bopLeft, hb] at h
    | some r =>
      cases hr : bopLeft f t us with
      | none => simp [bopLeft, hb, hr] at h
      | some rs' =>
        simp [bopLeft, hb, hr] at h
        simp [← h, ih rs' hr]

theorem bopRight_length (f : ℚ → ℚ → ℚ) :
    ∀ ts (u : JTensor) rs, bopRight f ts u = some rs → rs.length = ts.length := by
  intro ts
  induction ts with
  | nil => intro u rs h; simp [bopRight] at h; simp [← h]
  | cons t ts ih =>
    intro u rs h
    cases hb : bop f t u with
    | none => simp [bopRight, hb] at h
    | some r =>
      cases hr : bopRight f ts u with
      | none => simp [bopRight, hb, hr] at h
      | some rs' =>
        simp [bopRight, hb, hr] at h
        simp [← h, ih u rs' hr]

theorem bopZip_length (f : ℚ → ℚ → ℚ) :
    ∀ ts us rs, bopZip f ts us = some rs → rs.length = ts.length := by
  intro ts
  induction ts with
  | nil =>
    intro us rs h
    cases us with
    | nil => simp [bopZip] at h; simp [← h]
    | cons u us => simp [bopZip] at h
  | cons t ts ih =>
    intro us rs h
    cases us with
    | nil => simp [bopZip] at h
    | cons u us =>
      cases hb : bop f t u with
      | none => simp [bopZip, hb] at h
      | some r =>
        cases hr : bopZip f ts us with
        | none => simp [bopZip, hb, hr] at h
        | some rs' =>
          simp [bopZip, hb, hr] at h
          simp [← h, ih us rs' hr]

theorem bop_noLeadOne (f : ℚ → ℚ → ℚ) (a b r : JTensor)
    (ha : hasNoLeadOne a = true) (hb : hasNoLeadOne b = true)
    (h : bop f a b = some r) : hasNoLeadOne r = true := by
  cases a with
  | s x =>
    cases b with
    | s y => simp [bop] at h; simp [← h, hasNoLeadOne]
    | a us =>
      simp only [bop, Option.map_eq_some'] at h
      obtain ⟨rs, hrs, rfl⟩ := h
      have := bopLeft_length f (.s x) us rs hrs
      simp [hasNoLeadOne] at hb ⊢
      omega
  | a ts =>
    cases b with
    | s y =>
      simp only [bop, Option.map_eq_some'] at h
      obtain ⟨rs, hrs, rfl⟩ := h
      have := bopRight_length f ts (.s y) rs hrs
      simp [hasNoLeadOne] at ha ⊢
      omega
    | a us =>
      simp [hasNoLeadOne] at ha hb
      simp only [bop] at h
      rw [bopArr.eq_def] at h
      split at h
      · simp only [Option.map_eq_some'] at h
        obtain ⟨rs, hrs, rfl⟩ := h
        have := bopLeft_length f (.a ts) us rs hrs
        simp [hasNoLeadOne]
        omega
      · split at h
        · simp only [Option.map_eq_some'] at h
          obtain ⟨rs, hrs, rfl⟩ := h
          have := bopRight_length f ts (.a us) rs hrs
          simp [hasNoLeadOne]
          omega
        · split at h
          · simp only [Option.map_eq_some'] at h
            obtain ⟨rs, hrs, rfl⟩ := h
            have := bopZip_length f ts us rs hrs
            simp [hasNoLeadOne]
            omega
          · match ts, us, ha, hb, h with
            | [t], us, ha, _, _ => simp at ha
            | [], [u], _, hb, _ => simp at hb
            | t1 :: t2 :: ts, [u], _, hb, _ => simp at hb
            | [], [], _, _, h => simp at h
            | [], u1 :: u2 :: us, _, _, h => simp at h
            | t1 :: t2 :: ts, [], _, _, h => simp at h
            | t1 :: t2 :: ts, u1 :: u2 :: us, _, _, h => simp at h

theorem processEntry_noLeadOne (target : List Frame) (e : List Frame × JTensor)
    (v : JTensor) (h : processEntry target e = some v) : hasNoLeadOne v = true := by
  unfold processEntry at h
  cases hr : reduceFrames target e.1 e.2 with
  | none => rw [hr] at h; exact absurd h (by simp)
  | some w =>
    rw [hr] at h
    simp only [Option.some.injEq] at h
    rw [← h]
    exact squeezeLead_noLeadOne w

theorem sumToAux_noLeadOne (target : List Frame) :
    ∀ (es : MFT) (acc : Option JTensor) res,
      sumToAux target es acc = some res →
      (∀ t, acc = some t → hasNoLeadOne t = true) →
      ∀ t, res = some t → hasNoLeadOne t = true := by
  intro es
  induction es with
  | nil =>
    intro acc res h hacc t ht
    simp [sumToAux] at h
    exact hacc t (h ▸ ht)
  | cons e es ih =>
    intro acc res h hacc t ht
    cases hp : processEntry target e with
    | none => simp [sumToAux, hp] at h
    | some v =>
      have hv := processEntry_noLeadOne target e v hp
      cases acc with
      | none =>
        simp only [sumToAux, hp] at h
        exact ih (some v) res h (by rintro t' ⟨rfl⟩; exact hv) t ht
      | some t0 =>
        have ht0 := hacc t0 rfl
        cases hbd : badd t0 v with
        | none => simp [sumToAux, hp, hbd] at h
        | some t' =>
          simp only [sumToAux, hp, hbd] at h
          exact ih (some t') res h
            (by rintro t'' ⟨rfl⟩; exact bop_noLeadOne _ t0 v t' ht0 hv hbd) t ht

theorem reduceFrames_of_subset (target : List Frame) :
    ∀ (fs : List Frame) (v : JTensor), (∀ f ∈ fs, f ∈ target) →
      reduceFrames target fs v = some v := by
  intro fs
  induction fs with
  | nil => intro v _; simp [reduceFrames]
  | cons f fs ih =>
    intro v hsub
    have hf : f ∈ target := hsub f (by simp)
    simp only [reduceFrames, reduceStep, if_pos hf]
    exact ih v (fun g hg => hsub g (by simp [hg]))

theorem squeezeLead_of_noLeadOne (v : JTensor) (h : hasNoLeadOne v = true) :
    squeezeLead v = v := by
  match v, h with
  | .s x, _ => simp [squeezeLead]
  | .a [], _ => simp [squeezeLead]
  | .a [t], h => simp [hasNoLeadOne] at h
  | .a (t1 :: t2 :: ts), _ => simp [squeezeLead]

theorem sumTo_noLeadOne (m : MFT) (target : List Frame) (r : JTensor)
    (h : sumTo m target = some r) : hasNoLeadOne r = true := by
  unfold sumTo at h
  cases haux : sumToAux target m none with
  | none => rw [haux] at h; exact absurd h (by simp)
  | some res =>
    rw [haux] at h
    cases res with
    | none => simp only [Option.some.injEq] at h; simp [← h, hasNoLeadOne]
    | some t =>
      simp only [Option.some.injEq] at h
      rw [← h]
      exact sumToAux_noLeadOne target m none (some t) haux (by simp) t rfl

/-- Claim C10: for every non-empty `MultiFrameTensor`, `sum_to` returns a
tensor with no leading axis of size one; every stored tensor has its
leading unit axes squeezed away (so contributes a tensor with no leading
unit axis) before the results are added; and a frame whose dimension
currently has size one is never summed out, even when the frame is absent
from the target frames. -/
theorem claim_C10 :
    (∀ (m : MFT) (target : List Frame) (r : JTensor),
        m ≠ [] → sumTo m target = some r → hasNoLeadOne r = true)
    ∧ (∀ (target : List Frame) (e : List Frame × JTensor) (v : JTensor),
        processEntry target e = some v → hasNoLeadOne v = true)
    ∧ (∀ (target : List Frame) (v : JTensor) (f : Frame),
        f ∉ target → shapeAtNeg v f.dim = some 1 → reduceStep target v f = some v) := by
  refine ⟨fun m target r _ h => sumTo_noLeadOne m target r h,
          fun target e v h => processEntry_noLeadOne target e v h,
          fun target v f hf hs => ?_⟩
  simp [reduceStep, hf, hs]

/-- Witness for C10 at concrete inputs: a container holding the single
pair `([], [1, 2])` sums to `[1, 2]` (a leading axis of size 2), and a
frame of current size one with dimension `-1` leaves `[3]` unreduced. -/
theorem claim_C10_witness :
    (sumTo [([], JTensor.a [.s 1, .s 2])] [] = some (.a [.s 1, .s 2])
      ∧ hasNoLeadOne (JTensor.a [.s 1, .s 2]) = true)
    ∧ reduceStep [] (.a [.s 3]) ⟨"p", -1, 1⟩ = some (.a [.s 3]) := by
  have h1 : sumTo [([], JTensor.a [.s 1, .s 2])] [] = some (.a [.s 1, .s 2]) := by
    simp [sumTo, sumToAux, processEntry, reduceFrames, squeezeLead]
  refine ⟨⟨h1, claim_C10.1 _ _ _ (by simp) h1⟩,
    claim_C10.2.2 [] (.a [.s 3]) ⟨"p", -1, 1⟩ (by simp) ?_⟩
  simp [shapeAtNeg, shape, rank]

/-- Claim C8 is false as stated: `sum_to` squeezes leading unit axes, so
a single-pair container whose tensor has a leading axis of size one is
not returned unchanged.  Concretely, for the stack `[("p", -1, 1)]` (its
frame dimension is negative and within the rank) and the tensor `[5]` of
shape `(1,)`, `sum_to` returns the scalar `5`, not `[5]`. -/
theorem claim_C8_cex :
    mftAdd [] [⟨"p", -1, 1⟩] (.a [.s 5]) = some [([⟨"p", -1, 1⟩], .a [.s 5])]
    ∧ sumTo [([⟨"p", -1, 1⟩], .a [.s 5])] [⟨"p", -1, 1⟩] = some (.s 5)
    ∧ (JTensor.s 5 ≠ JTensor.a [.s 5]) := by
  refine ⟨by simp [mftAdd, frameOkB, rank], ?_, by intro h; exact JTensor.noConfusion h⟩
  simp [sumTo, sumToAux, processEntry, reduceFrames, reduceStep, squeezeLead]

/-- Claim C8, amended: on a `MultiFrameTensor` built from the single pair
`(stack, value)` (frame dimensions negative and within the rank, enforced
by the `add` assertion), `sum_to(stack)` returns the value with its
leading axes of size one squeezed away; in particular the value is
returned unchanged whenever it has no leading axis of size one. -/
theorem claim_C8 (stack : List Frame) (v : JTensor) (m : MFT)
    (h : mftAdd [] stack v = some m) :
    sumTo m stack = some (squeezeLead v)
    ∧ (hasNoLeadOne v = true → squeezeLead v = v) := by
  refine ⟨?_, squeezeLead_of_noLeadOne v⟩
  have hm : m = [(stack.dedup, v)] := by
    by_cases hc : (stack.dedup).all (frameOkB v) = true
    · simp [mftAdd, hc] at h
      exact h.symm
    · simp [mftAdd, hc] at h
  subst hm
  have hred : reduceFrames stack stack.dedup v = some v :=
    reduceFrames_of_subset stack stack.dedup v (fun f hf => List.mem_dedup.mp hf)
  simp [sumTo, sumToAux, processEntry, hred]

/-- Witness for C8 (amended) at a concrete input: stack `[("p", -1, 3)]`,
value `[1, 2]` (no leading unit axis): `sum_to` returns the value
unchanged. -/
theorem claim_C8_witness :
    sumTo [([⟨"p", -1, 3⟩], JTensor.a [.s 1, .s 2])] [⟨"p", -1, 3⟩]
      = some (.a [.s 1, .s 2]) := by
  have h := claim_C8 [⟨"p", -1, 3⟩] (.a [.s 1, .s 2])
    [([⟨"p", -1, 3⟩], JTensor.a [.s 1, .s 2])] (by simp [mftAdd, frameOkB, rank])
  rw [h.1, h.2 (by simp [hasNoLeadOne])]

/-! ## The bipartite partitioner `_partition`

`_partition(model_sum_deps, sum_vars)` builds an adjacency table between
cost-term names and the enumerated variables they depend on, then groups
it into connected components with a mutable work-list, splitting each
component into factor names and eliminated-variable names.  Dictionaries
are insertion-ordered association lists; the frozensets `deps` and
`sum_vars` are given in their (arbitrary) iteration order as lists; the
work-list loops carry explicit fuel, with `none` modelling a run that
raises (KeyError) or exceeds the fuel. -/

abbrev Name := String

abbrev Nbrs := List (Name × List Name)

/-- Key set (in order) of an association list. -/
def dom (nbrs : Nbrs) : List Name := nbrs.map Prod.fst

/-- Python `neighbors[key].append(dim)` on a present key. -/
def nbAppend (nbrs : Nbrs) (k v : Name) : Nbrs :=
  nbrs.map (fun p => if p.1 = k then (p.1, p.2 ++ [v]) else p)

/-- Python `neighbors.setdefault(dim, []).append(key)`. -/
def nbSetdefaultAppend (nbrs : Nbrs) (k v : Name) : Nbrs :=
  if k ∈ dom nbrs then nbAppend nbrs k v else nbrs ++ [(k, [v])]

/-- Inner loop `for dim in deps: if dim in sum_vars: ...` of `_partition`. -/
def addDims (key : Name) (sumVars : List Name) : List Name → Nbrs → Nbrs
  | [], nbrs => nbrs
  | dim :: dims, nbrs =>
    addDims key sumVars dims
      (if dim ∈ sumVars then nbSetdefaultAppend (nbAppend nbrs key dim) dim key
       else nbrs)

/-- Outer loop `for key, deps in model_sum_deps.items(): ...`. -/
def addAllEdges (sumVars : List Name) : List (Name × List Name) → Nbrs → Nbrs
  | [], nbrs => nbrs
  | kd :: rest, nbrs => addAllEdges sumVars rest (addDims kd.1 sumVars kd.2 nbrs)

/-- Construction of the bipartite adjacency table of `_partition`:
`neighbors` is initialized with every cost-term key (empty adjacency) and
then populated with an edge for every (key, dim) pair with `dim` in
`sum_vars`. -/
def buildNeighbors (msd : List (Name × List Name)) (sumVars : List Name) : Nbrs :=
  addAllEdges sumVars msd (msd.map (fun p => (p.1, ([] : List Name))))

/-- Python `OrderedDict.popitem()`: removes and returns the most recently
inserted entry (`none` on an empty dict). -/
def popLast : List α → Option (α × List α)
  | [] => none
  | [x] => some (x, [])
  | x :: y :: xs => (popLast (y :: xs)).map (fun p => (p.1, x :: p.2))

/-- Python `neighbors.pop(v)`: look up and remove the entry; `none` is the
KeyError on a missing key. -/
def nbPop (nbrs : Nbrs) (k : Name) : Option (List Name × Nbrs) :=
  match nbrs.lookup k with
  | none => none
  | some adj => some (adj, nbrs.filter (fun p => p.1 ≠ k))

/-- Loop `for v in neighbors.pop(v): if v not in component: component[v] =
None; pending.append(v)`.  The pending list is kept as a stack with the
most recently appended name first, matching `list.pop()` from the end. -/
def pushNew (comp stack : List Name) : List Name → List Name × List Name
  | [] => (comp, stack)
  | w :: ws =>
    if w ∈ comp then pushNew comp stack ws
    else pushNew (comp ++ [w]) (w :: stack) ws

/-- Work-list loop `while pending: ...` of `_partition`. -/
def innerLoop : Nat → Nbrs → List Name → List Name → Option (List Name × Nbrs)
  | 0, _, _, _ => none
  | _ + 1, nbrs, comp, [] => some (comp, nbrs)
  | fuel + 1, nbrs, comp, v :: stack =>
    match nbPop nbrs v with
    | none => none
    | some (adj, nbrs') =>
      let cs := pushNew comp stack adj
      innerLoop fuel nbrs' cs.1 cs.2

/-- Seed of a component: `component = OrderedDict([(v, None)]); for w in
pending: component[w] = None` (dict insertion deduplicates). -/
def initComp (v : Name) (adj : List Name) : List Name :=
  adj.foldl (fun c w => if w ∈ c then c else c ++ [w]) [v]

/-- Loop `while neighbors: ...` of `_partition`: pop the latest entry,
flood its connected component, split it into factors (names outside
`sum_vars`) and measures (names inside), and append the pair when the
factor set is non-empty. -/
def outerLoop (sumVars : List Name) :
    Nat → Nbrs → List (List Name × List Name) → Option (List (List Name × List Name))
  | 0, _, _ => none
  | _ + 1, [], acc => some acc
  | fuel + 1, e :: nbrs, acc =>
    match popLast (e :: nbrs) with
    | none => none
    | some ((v, adj), nbrs1) =>
      match innerLoop fuel nbrs1 (initComp v adj) adj.reverse with
      | none => none
      | some (comp, nbrs2) =>
        let factors := comp.filter (fun w => decide (w ∉ sumVars))
        let measures := comp.filter (fun w => decide (w ∈ sumVars))
        outerLoop sumVars fuel nbrs2
          (if factors.isEmpty then acc else acc ++ [(factors, measures)])

/-- Function `_partition(model_sum_deps, sum_vars)`. -/
def partitionFn (msd : List (Name × List Name)) (sumVars : List Name)
    (fuel : Nat) : Option (List (List Name × List Name)) :=
  outerLoop sumVars fuel (buildNeighbors msd sumVars) []

theorem lookup_some_mem_dom {nbrs : Nbrs} {k : Name} {adj : List Name}
    (h : nbrs.lookup k = some adj) : k ∈ dom nbrs := by
  induction nbrs with
  | nil => simp [List.lookup] at h
  | cons p rest ih =>
    obtain ⟨k', v'⟩ := p
    by_cases hk : k = k'
    · simp [dom, hk]
    · have hbeq : (k == k') = false := by simp [hk]
      rw [List.lookup, hbeq] at h
      exact List.mem_cons_of_mem _ (ih h)

theorem mem_dom_filter_ne {nbrs : Nbrs} {k x : Name} :
    x ∈ dom (nbrs.filter (fun p => p.1 ≠ k)) ↔ x ∈ dom nbrs ∧ x ≠ k := by
  simp only [dom, List.mem_map, List.mem_filter, decide_eq_true_eq]
  constructor
  · rintro ⟨p, ⟨hp, hne⟩, rfl⟩
    exact ⟨⟨p, hp, rfl⟩, hne⟩
  · rintro ⟨⟨p, hp, rfl⟩, hne⟩
    exact ⟨p, ⟨hp, hne⟩, rfl⟩

theorem nbPop_mem {nbrs : Nbrs} {k : Name} {adj : List Name} {nbrs' : Nbrs}
    (h : nbPop nbrs k = some (adj, nbrs')) : k ∈ dom nbrs := by
  unfold nbPop at h
  cases hl : nbrs.lookup k with
  | none => rw [hl] at h; exact absurd h (by simp)
  | some a => exact lookup_some_mem_dom hl

theorem nbPop_dom {nbrs : Nbrs} {k : Name} {adj : List Name} {nbrs' : Nbrs}
    (h : nbPop nbrs k = some (adj, nbrs')) :
    ∀ x, x ∈ dom nbrs' ↔ x ∈ dom nbrs ∧ x ≠ k := by
  unfold nbPop at h
  cases hl : nbrs.lookup k with
  | none => rw [hl] at h; exact absurd h (by simp)
  | some a =>
    rw [hl] at h
    simp only [Option.some.injEq, Prod.mk.injEq] at h
    intro x
    rw [← h.2]
    exact mem_dom_filter_ne

theorem nbPop_nodup {nbrs : Nbrs} {k : Name} {adj : List Name} {nbrs' : Nbrs}
    (h : nbPop nbrs k = some (adj, nbrs')) (hnd : (dom nbrs).Nodup) :
    (dom nbrs').Nodup := by
  unfold nbPop at h
  cases hl : nbrs.lookup k with
  | none => rw [hl] at h; exact absurd h (by simp)
  | some a =>
    rw [hl] at h
    simp only [Option.some.injEq, Prod.mk.injEq] at h
    rw [← h.2]
    exact hnd.sublist ((List.filter_sublist nbrs).map Prod.fst)

theorem popLast_eq : ∀ (l : List α) (x : α) (l' : List α),
    popLast l = some (x, l') → l = l' ++ [x] := by
  intro l
  induction l with
  | nil => intro x l' h; simp [popLast] at h
  | cons a rest ih =>
    intro x l' h
    cases rest with
    | nil => simp [popLast] at h; simp [h.1, ← h.2]
    | cons b rest' =>
      simp only [popLast, Option.map_eq_some'] at h
      obtain ⟨p, hp, hx⟩ := h
      have := ih p.1 p.2 hp
      simp only [Prod.mk.injEq] at hx
      rw [← hx.1, ← hx.2, this]
      simp

theorem pushNew_comp_mono : ∀ (ws comp stack : List Name) (x : Name),
    x ∈ comp → x ∈ (pushNew comp stack ws).1 := by
  intro ws
  induction ws with
  | nil => intro comp stack x hx; simpa [pushNew] using hx
  | cons w ws ih =>
    intro comp stack x hx
    by_cases hw : w ∈ comp
    · simpa [pushNew, hw] using ih comp stack x hx
    · simpa [pushNew, hw] using ih (comp ++ [w]) (w :: stack) x (by simp [hx])

theorem pushNew_stack_mono : ∀ (ws comp stack : List Name) (x : Name),
    x ∈ stack → x ∈ (pushNew comp stack ws).2 := by
  intro ws
  induction ws with
  | nil => intro comp stack x hx; simpa [pushNew] using hx
  | cons w ws ih =>
    intro comp stack x hx
    by_cases hw : w ∈ comp
    · simpa [pushNew, hw] using ih comp stack x hx
    · simpa [pushNew, hw] using ih (comp ++ [w]) (w :: stack) x (by simp [hx])

theorem pushNew_comp_split : ∀ (ws comp stack : List Name) (x : Name),
    x ∈ (pushNew comp stack ws).1 → x ∈ comp ∨ x ∈ (pushNew comp stack ws).2 := by
  intro ws
  induction ws with
  | nil => intro comp stack x hx; left; simpa [pushNew] using hx
  | cons w ws ih =>
    intro comp stack x hx
    by_cases hw : w ∈ comp
    · simp only [pushNew, if_pos hw] at hx ⊢
      exact ih comp stack x hx
    · simp only [pushNew, if_neg hw] at hx ⊢
      rcases ih (comp ++ [w]) (w :: stack) x hx with hc | hs
      · rcases List.mem_append.mp hc with hc | hc
        · exact Or.inl hc
        · right
          have : x ∈ w :: stack := by simpa using Or.inl (List.mem_singleton.mp hc)
          exact pushNew_stack_mono ws (comp ++ [w]) (w :: stack) x this
      · exact Or.inr hs

theorem pushNew_pc : ∀ (ws comp stack : List Name),
    (∀ x ∈ stack, x ∈ comp) →
    ∀ x ∈ (pushNew comp stack ws).2, x ∈ (pushNew comp stack ws).1 := by
  intro ws
  induction ws with
  | nil => intro comp stack hpc x hx; simp only [pushNew] at hx ⊢; exact hpc x hx
  | cons w ws ih =>
    intro comp stack hpc x hx
    by_cases hw : w ∈ comp
    · simp only [pushNew, if_pos hw] at hx ⊢
      exact ih comp stack hpc x hx
    · simp only [pushNew, if_neg hw] at hx ⊢
      refine ih (comp ++ [w]) (w :: stack) ?_ x hx
      intro y hy
      rcases List.mem_cons.mp hy with rfl | hy
      · simp
      · simp [hpc y hy]

theorem mem_foldIns : ∀ (ws c : List Name) (x : Name),
    x ∈ ws.foldl (fun c w => if w ∈ c then c else c ++ [w]) c ↔ x ∈ c ∨ x ∈ ws := by
  intro ws
  induction ws with
  | nil => intro c x; simp
  | cons w ws ih =>
    intro c x
    by_cases hw : w ∈ c
    · rw [List.foldl_cons, if_pos hw, ih]
      constructor
      · rintro (h | h)
        · exact Or.inl h
        · exact Or.inr (by simp [h])
      · rintro (h | h)
        · exact Or.inl h
        · rcases List.mem_cons.mp h with rfl | h
          · exact Or.inl hw
          · exact Or.inr h
    · rw [List.foldl_cons, if_neg hw, ih]
      constructor
      · rintro (h | h)
        · rcases List.mem_append.mp h with h | h
          · exact Or.inl h
          · exact Or.inr (by simp [List.mem_singleton.mp h])
        · exact Or.inr (by simp [h])
      · rintro (h | h)
        · exact Or.inl (by simp [h])
        · rcases List.mem_cons.mp h with rfl | h
          · exact Or.inl (by simp)
          · exact Or.inr h

theorem mem_initComp {v : Name} {adj : List Name} {x : Name} :
    x ∈ initComp v adj ↔ x = v ∨ x ∈ adj := by
  unfold initComp
  rw [mem_foldIns]
  simp

theorem innerLoop_comp_mono : ∀ (fuel : Nat) (nbrs : Nbrs) (comp stack comp' : List Name)
    (nbrs' : Nbrs), innerLoop fuel nbrs comp stack = some (comp', nbrs') →
    ∀ x ∈ comp, x ∈ comp' := by
  intro fuel
  induction fuel with
  | zero => intro nbrs comp stack comp' nbrs' h; simp [innerLoop] at h
  | succ fuel ih =>
    intro nbrs comp stack comp' nbrs' h x hx
    cases stack with
    | nil =>
      simp only [innerLoop, Option.some.injEq, Prod.mk.injEq] at h
      exact h.1 ▸ hx
    | cons v stack =>
      simp only [innerLoop] at h
      cases hp : nbPop nbrs v with
      | none => rw [hp] at h; exact absurd h (by simp)
      | some pr =>
        obtain ⟨adj, nbrs1⟩ := pr
        rw [hp] at h
        exact ih _ _ _ _ _ h x
          (pushNew_comp_mono adj comp stack x hx)

theorem innerLoop_dom_mono : ∀ (fuel : Nat) (nbrs : Nbrs) (comp stack comp' : List Name)
    (nbrs' : Nbrs), innerLoop fuel nbrs comp stack = some (comp', nbrs') →
    ∀ x ∈ dom nbrs', x ∈ dom nbrs := by
  intro fuel
  induction fuel with
  | zero => intro nbrs comp stack comp' nbrs' h; simp [innerLoop] at h
  | succ fuel ih =>
    intro nbrs comp stack comp' nbrs' h x hx
    cases stack with
    | nil =>
      simp only [innerLoop, Option.some.injEq, Prod.mk.injEq] at h
      exact h.2 ▸ hx
    | cons v stack =>
      simp only [innerLoop] at h
      cases hp : nbPop nbrs v with
      | none => rw [hp] at h; exact absurd h (by simp)
      | some pr =>
        obtain ⟨adj, nbrs1⟩ := pr
        rw [hp] at h
        exact ((nbPop_dom hp x).mp
          (ih _ _ _ _ _ h x hx)).1

theorem innerLoop_stack_dom : ∀ (fuel : Nat) (nbrs : Nbrs) (comp stack comp' : List Name)
    (nbrs' : Nbrs), innerLoop fuel nbrs comp stack = some (comp', nbrs') →
    ∀ x ∈ stack, x ∈ dom nbrs := by
  intro fuel
  induction fuel with
  | zero => intro nbrs comp stack comp' nbrs' h; simp [innerLoop] at h
  | succ fuel ih =>
    intro nbrs comp stack comp' nbrs' h x hx
    cases stack with
    | nil => simp at hx
    | cons v stack =>
      simp only [innerLoop] at h
      cases hp : nbPop nbrs v with
      | none => rw [hp] at h; exact absurd h (by simp)
      | some pr =>
        obtain ⟨adj, nbrs1⟩ := pr
        rw [hp] at h
        rcases List.mem_cons.mp hx with rfl | hx
        · exact nbPop_mem hp
        · have : x ∈ (pushNew comp stack adj).2 :=
            pushNew_stack_mono adj comp stack x hx
          have hd1 := ih _ _ _ _ _ h x this
          exact ((nbPop_dom hp x).mp hd1).1

theorem innerLoop_comp_sub : ∀ (fuel : Nat) (nbrs : Nbrs) (comp stack comp' : List Name)
    (nbrs' : Nbrs), innerLoop fuel nbrs comp stack = some (comp', nbrs') →
    ∀ x ∈ comp', x ∈ comp ∨ x ∈ dom nbrs := by
  intro fuel
  induction fuel with
  | zero => intro nbrs comp stack comp' nbrs' h; simp [innerLoop] at h
  | succ fuel ih =>
    intro nbrs comp stack comp' nbrs' h x hx
    cases stack with
    | nil =>
      simp only [innerLoop, Option.some.injEq, Prod.mk.injEq] at h
      exact Or.inl (h.1 ▸ hx)
    | cons v stack =>
      simp only [innerLoop] at h
      cases hp : nbPop nbrs v with
      | none => rw [hp] at h; exact absurd h (by simp)
      | some pr =>
        obtain ⟨adj, nbrs1⟩ := pr
        rw [hp] at h
        have hdom1 : ∀ y, y ∈ dom nbrs1 → y ∈ dom nbrs := fun y hy =>
          ((nbPop_dom hp y).mp hy).1
        rcases ih _ _ _ _ _ h x hx with hc | hd
        · rcases pushNew_comp_split adj comp stack x hc with hc | hs
          · exact Or.inl hc
          · exact Or.inr (hdom1 x (innerLoop_stack_dom _ _ _ _ _ _ h x hs))
        · exact Or.inr (hdom1 x hd)

theorem innerLoop_removed_comp : ∀ (fuel : Nat) (nbrs : Nbrs)
    (comp stack comp' : List Name) (nbrs' : Nbrs),
    innerLoop fuel nbrs comp stack = some (comp', nbrs') →
    (∀ x ∈ stack, x ∈ comp) →
    ∀ x, x ∈ dom nbrs → x ∉ dom nbrs' → x ∈ comp' := by
  intro fuel
  induction fuel with
  | zero => intro nbrs comp stack comp' nbrs' h; simp [innerLoop] at h
  | succ fuel ih =>
    intro nbrs comp stack comp' nbrs' h hpc x hx hx'
    cases stack with
    | nil =>
      simp only [innerLoop, Option.some.injEq, Prod.mk.injEq] at h
      exact absurd (h.2 ▸ hx) hx'
    | cons v stack =>
      simp only [innerLoop] at h
      cases hp : nbPop nbrs v with
      | none => rw [hp] at h; exact absurd h (by simp)
      | some pr =>
        obtain ⟨adj, nbrs1⟩ := pr
        rw [hp] at h
        by_cases hv : x = v
        · subst hv
          have : x ∈ comp := hpc x (by simp)
          exact innerLoop_comp_mono _ _ _ _ _ _ h x
            (pushNew_comp_mono adj comp stack x this)
        · have hx1 : x ∈ dom nbrs1 :=
            (nbPop_dom hp x).mpr ⟨hx, hv⟩
          refine ih _ _ _ _ _ h ?_ x hx1 hx'
          exact pushNew_pc adj comp stack (fun y hy => hpc y (by simp [hy]))

theorem innerLoop_comp_disjoint : ∀ (fuel : Nat) (nbrs : Nbrs)
    (comp stack comp' : List Name) (nbrs' : Nbrs),
    innerLoop fuel nbrs comp stack = some (comp', nbrs') →
    (∀ x ∈ comp, x ∈ dom nbrs → x ∈ stack) →
    ∀ x ∈ comp', x ∉ dom nbrs' := by
  intro fuel
  induction fuel with
  | zero => intro nbrs comp stack comp' nbrs' h; simp [innerLoop] at h
  | succ fuel ih =>
    intro nbrs comp stack comp' nbrs' h hinv x hx
    cases stack with
    | nil =>
      simp only [innerLoop, Option.some.injEq, Prod.mk.injEq] at h
      intro hd
      exact absurd (hinv x (h.1 ▸ hx) (h.2 ▸ hd)) (by simp)
    | cons v stack =>
      simp only [innerLoop] at h
      cases hp : nbPop nbrs v with
      | none => rw [hp] at h; exact absurd h (by simp)
      | some pr =>
        obtain ⟨adj, nbrs1⟩ := pr
        rw [hp] at h
        refine ih _ _ _ _ _ h ?_ x hx
        intro y hy hyd
        rcases pushNew_comp_split adj comp stack y hy with hc | hs
        · have hyd0 := (nbPop_dom hp y).mp hyd
          have : y ∈ v :: stack := hinv y hc hyd0.1
          rcases List.mem_cons.mp this with rfl | hys
          · exact absurd rfl hyd0.2
          · exact pushNew_stack_mono adj comp stack y hys
        · exact hs

theorem innerLoop_dom_nodup : ∀ (fuel : Nat) (nbrs : Nbrs)
    (comp stack comp' : List Name) (nbrs' : Nbrs),
    innerLoop fuel nbrs comp stack = some (comp', nbrs') →
    (dom nbrs).Nodup → (dom nbrs').Nodup := by
  intro fuel
  induction fuel with
  | zero => intro nbrs comp stack comp' nbrs' h; simp [innerLoop] at h
  | succ fuel ih =>
    intro nbrs comp stack comp' nbrs' h hnd
    cases stack with
    | nil =>
      simp only [innerLoop, Option.some.injEq, Prod.mk.injEq] at h
      exact h.2 ▸ hnd
    | cons v stack =>
      simp only [innerLoop] at h
      cases hp : nbPop nbrs v with
      | none => rw [hp] at h; exact absurd h (by simp)
      | some pr =>
        obtain ⟨adj, nbrs1⟩ := pr
        rw [hp] at h
        exact ih _ _ _ _ _ h (nbPop_nodup hp hnd)

/-- Disjointness relation on component pairs used for claim C4: the factor
sets of the two pairs do not intersect. -/
def FactorsDisjoint (c₁ c₂ : List Name × List Name) : Prop :=
  ∀ x, x ∈ c₁.1 → x ∉ c₂.1

theorem outerLoop_prefix (sv : List Name) : ∀ (fuel : Nat) (nbrs : Nbrs)
    (acc res : List (List Name × List Name)),
    outerLoop sv fuel nbrs acc = some res → ∃ suffix, res = acc ++ suffix := by
  intro fuel
  induction fuel with
  | zero => intro nbrs acc res h; simp [outerLoop] at h
  | succ fuel ih =>
    intro nbrs acc res h
    cases nbrs with
    | nil =>
      simp only [outerLoop, Option.some.injEq] at h
      exact ⟨[], by simp [h]⟩
    | cons e nbrs =>
      simp only [outerLoop] at h
      cases hpl : popLast (e :: nbrs) with
      | none => rw [hpl] at h; exact absurd h (by simp)
      | some pr =>
        obtain ⟨⟨v, adj⟩, nbrs1⟩ := pr
        simp only [hpl] at h
        cases hil : innerLoop fuel nbrs1 (initComp v adj) adj.reverse with
        | none =>
          simp only [hil] at h
          exact Option.noConfusion h
        | some cn =>
          obtain ⟨comp, nbrs2⟩ := cn
          simp only [hil] at h
          by_cases hemp : (comp.filter (fun w => decide (w ∉ sv))).isEmpty
          · rw [if_pos hemp] at h
            exact ih _ _ _ h
          · rw [if_neg hemp] at h
            obtain ⟨suffix, hsuf⟩ := ih _ _ _ h
            refine ⟨(comp.filter (fun w => decide (w ∉ sv)),
                     comp.filter (fun w => decide (w ∈ sv))) :: suffix, ?_⟩
            rw [hsuf]
            simp

theorem outerLoop_pairwise (sv : List Name) : ∀ (fuel : Nat) (nbrs : Nbrs)
    (acc res : List (List Name × List Name)),
    outerLoop sv fuel nbrs acc = some res →
    (dom nbrs).Nodup →
    (∀ c ∈ acc, ∀ x, x ∈ c.1 → x ∉ dom nbrs) →
    acc.Pairwise FactorsDisjoint →
    res.Pairwise FactorsDisjoint := by
  intro fuel
  induction fuel with
  | zero => intro nbrs acc res h; simp [outerLoop] at h
  | succ fuel ih =>
    intro nbrs acc res h hnd hacc hpw
    cases nbrs with
    | nil =>
      simp only [outerLoop, Option.some.injEq] at h
      exact h ▸ hpw
    | cons e nbrs =>
      simp only [outerLoop] at h
      cases hpl : popLast (e :: nbrs) with
      | none => rw [hpl] at h; exact absurd h (by simp)
      | some pr =>
        obtain ⟨⟨v, adj⟩, nbrs1⟩ := pr
        simp only [hpl] at h
        cases hil : innerLoop fuel nbrs1 (initComp v adj) adj.reverse with
        | none =>
          simp only [hil] at h
          exact Option.noConfusion h
        | some cn =>
          obtain ⟨comp, nbrs2⟩ := cn
          simp only [hil] at h
          -- structural facts about this iteration
          have hsplit : e :: nbrs = nbrs1 ++ [(v, adj)] := popLast_eq _ _ _ hpl
          have hdomEq : dom (e :: nbrs) = dom nbrs1 ++ [v] := by
            rw [hsplit]; simp [dom]
          have hvn : v ∉ dom nbrs1 ∧ (dom nbrs1).Nodup := by
            have := hdomEq ▸ hnd
            constructor
            · intro hv
              exact (List.nodup_append.mp this).2.2 hv (by simp)
            · exact (List.nodup_append.mp this).1
          -- the component is contained in the domain before this iteration
          have hadjdom : ∀ x ∈ adj, x ∈ dom nbrs1 := fun x hx =>
            innerLoop_stack_dom _ _ _ _ _ _ hil x (by simpa using hx)
          have hcompdom : ∀ x ∈ comp, x ∈ dom (e :: nbrs) := by
            intro x hx
            rcases innerLoop_comp_sub _ _ _ _ _ _ hil x hx with hc | hd
            · rcases mem_initComp.mp hc with rfl | hc
              · rw [hdomEq]; simp
              · rw [hdomEq]; simp [hadjdom x hc]
            · rw [hdomEq]; simp [hd]
          -- the component is disjoint from the remaining domain
          have hdisj : ∀ x ∈ comp, x ∉ dom nbrs2 := by
            refine innerLoop_comp_disjoint _ _ _ _ _ _ hil ?_
            intro x hx hxd
            rcases mem_initComp.mp hx with rfl | hx
            · exact absurd hxd hvn.1
            · simpa using hx
          have hnd2 : (dom nbrs2).Nodup := innerLoop_dom_nodup _ _ _ _ _ _ hil hvn.2
          have hdom2sub : ∀ x ∈ dom nbrs2, x ∈ dom (e :: nbrs) := by
            intro x hx
            rw [hdomEq]
            simp [innerLoop_dom_mono _ _ _ _ _ _ hil x hx]
          by_cases hemp : (comp.filter (fun w => decide (w ∉ sv))).isEmpty
          · rw [if_pos hemp] at h
            refine ih _ _ _ h hnd2 ?_ hpw
            intro c hc x hx hxd
            exact hacc c hc x hx (hdom2sub x hxd)
          · rw [if_neg hemp] at h
            refine ih _ _ _ h hnd2 ?_ ?_
            · intro c hc x hx hxd
              rcases List.mem_append.mp hc with hc | hc
              · exact hacc c hc x hx (hdom2sub x hxd)
              · have hc' := List.mem_singleton.mp hc
                have hxc : x ∈ comp := by
                  rw [hc'] at hx
                  exact (List.mem_filter.mp hx).1
                exact hdisj x hxc hxd
            · rw [List.pairwise_append]
              refine ⟨hpw, by simp [FactorsDisjoint], ?_⟩
              intro c hc c' hc'
              rw [List.mem_singleton.mp hc']
              intro x hx hx'
              have hxc : x ∈ comp := (List.mem_filter.mp hx').1
              exact hacc c hc x hx (hcompdom x hxc)

theorem outerLoop_cover (sv : List Name) : ∀ (fuel : Nat) (nbrs : Nbrs)
    (acc res : List (List Name × List Name)),
    outerLoop sv fuel nbrs acc = some res →
    ∀ k, k ∈ dom nbrs → k ∉ sv → ∃ c ∈ res, k ∈ c.1 := by
  intro fuel
  induction fuel with
  | zero => intro nbrs acc res h; simp [outerLoop] at h
  | succ fuel ih =>
    intro nbrs acc res h k hk hksv
    cases nbrs with
    | nil => simp [dom] at hk
    | cons e nbrs =>
      simp only [outerLoop] at h
      cases hpl : popLast (e :: nbrs) with
      | none => rw [hpl] at h; exact absurd h (by simp)
      | some pr =>
        obtain ⟨⟨v, adj⟩, nbrs1⟩ := pr
        simp only [hpl] at h
        cases hil : innerLoop fuel nbrs1 (initComp v adj) adj.reverse with
        | none =>
          simp only [hil] at h
          exact Option.noConfusion h
        | some cn =>
          obtain ⟨comp, nbrs2⟩ := cn
          simp only [hil] at h
          have hsplit : e :: nbrs = nbrs1 ++ [(v, adj)] := popLast_eq _ _ _ hpl
          have hdomEq : dom (e :: nbrs) = dom nbrs1 ++ [v] := by
            rw [hsplit]; simp [dom]
          by_cases hk2 : k ∈ dom nbrs2
          · -- still unprocessed: handled by a later iteration
            by_cases hemp : (comp.filter (fun w => decide (w ∉ sv))).isEmpty
            · rw [if_pos hemp] at h
              exact ih _ _ _ h k hk2 hksv
            · rw [if_neg hemp] at h
              exact ih _ _ _ h k hk2 hksv
          · -- removed in this iteration: lands in this component
            have hkcomp : k ∈ comp := by
              by_cases hkv : k = v
              · subst hkv
                exact innerLoop_comp_mono _ _ _ _ _ _ hil k
                  (mem_initComp.mpr (Or.inl rfl))
              · have hk1 : k ∈ dom nbrs1 := by
                  rw [hdomEq] at hk
                  rcases List.mem_append.mp hk with hk | hk
                  · exact hk
                  · exact absurd (List.mem_singleton.mp hk) hkv
                refine innerLoop_removed_comp _ _ _ _ _ _ hil ?_ k hk1 hk2
                intro x hx
                exact mem_initComp.mpr (Or.inr (by simpa using hx))
            have hkfac : k ∈ comp.filter (fun w => decide (w ∉ sv)) :=
              List.mem_filter.mpr ⟨hkcomp, by simpa using hksv⟩
            have hemp : ¬(comp.filter (fun w => decide (w ∉ sv))).isEmpty := by
              intro hemp
              rw [List.isEmpty_iff] at hemp
              rw [hemp] at hkfac
              simp at hkfac
            rw [if_neg hemp] at h
            obtain ⟨suffix, hsuf⟩ := outerLoop_prefix sv _ _ _ _ h
            refine ⟨(comp.filter (fun w => decide (w ∉ sv)),
                     comp.filter (fun w => decide (w ∈ sv))), ?_, hkfac⟩
            rw [hsuf]
            simp

theorem countP_eq_one_of_pairwise (k : Name) :
    ∀ (l : List (List Name × List Name)), l.Pairwise FactorsDisjoint →
    (∃ c ∈ l, k ∈ c.1) → l.countP (fun c => decide (k ∈ c.1)) = 1 := by
  intro l
  induction l with
  | nil => rintro _ ⟨c, hc, _⟩; simp at hc
  | cons c l ih =>
    intro hpw he
    have hd := (List.pairwise_cons.mp hpw).1
    have hpw' := (List.pairwise_cons.mp hpw).2
    by_cases hk : k ∈ c.1
    · have hzero : l.countP (fun c => decide (k ∈ c.1)) = 0 := by
        rw [List.countP_eq_zero]
        intro c' hc'
        simpa using hd c' hc' k hk
      rw [List.countP_cons, hzero]
      simp [hk]
    · rw [List.countP_cons]
      rcases he with ⟨c₀, hc₀, hkc₀⟩
      rcases List.mem_cons.mp hc₀ with rfl | hc₀
      · exact absurd hkc₀ hk
      · rw [ih hpw' ⟨c₀, hc₀, hkc₀⟩]
        simp [hk]

theorem dom_nbAppend (nbrs : Nbrs) (k v : Name) : dom (nbAppend nbrs k v) = dom nbrs := by
  unfold dom nbAppend
  rw [List.map_map]
  refine List.map_congr_left ?_
  intro p _
  by_cases hp : p.1 = k <;> simp [hp]

theorem mem_dom_setdefault {nbrs : Nbrs} {k v x : Name} :
    x ∈ dom (nbSetdefaultAppend nbrs k v) ↔ x ∈ dom nbrs ∨ x = k := by
  unfold nbSetdefaultAppend
  by_cases hk : k ∈ dom nbrs
  · rw [if_pos hk, dom_nbAppend]
    constructor
    · exact Or.inl
    · rintro (h | rfl)
      · exact h
      · exact hk
  · rw [if_neg hk]
    simp [dom]

theorem nodup_dom_setdefault {nbrs : Nbrs} {k v : Name}
    (hnd : (dom nbrs).Nodup) : (dom (nbSetdefaultAppend nbrs k v)).Nodup := by
  unfold nbSetdefaultAppend
  by_cases hk : k ∈ dom nbrs
  · rw [if_pos hk, dom_nbAppend]; exact hnd
  · rw [if_neg hk]
    unfold dom
    rw [List.map_append]
    simp only [List.map_cons, List.map_nil]
    rw [List.nodup_append]
    exact ⟨hnd, List.nodup_singleton k, by
      intro a ha hb
      rw [List.mem_singleton.mp hb] at ha
      exact hk ha⟩

theorem addDims_dom_mono (key : Name) (sv : List Name) :
    ∀ (dims : List Name) (nbrs : Nbrs) (x : Name),
    x ∈ dom nbrs → x ∈ dom (addDims key sv dims nbrs) := by
  intro dims
  induction dims with
  | nil => intro nbrs x hx; simpa [addDims] using hx
  | cons dim dims ih =>
    intro nbrs x hx
    simp only [addDims]
    by_cases hd : dim ∈ sv
    · rw [if_pos hd]
      refine ih _ x ?_
      rw [mem_dom_setdefault, dom_nbAppend]
      exact Or.inl hx
    · rw [if_neg hd]
      exact ih _ x hx

theorem addDims_nodup (key : Name) (sv : List Name) :
    ∀ (dims : List Name) (nbrs : Nbrs),
    (dom nbrs).Nodup → (dom (addDims key sv dims nbrs)).Nodup := by
  intro dims
  induction dims with
  | nil => intro nbrs hx; simpa [addDims] using hx
  | cons dim dims ih =>
    intro nbrs hx
    simp only [addDims]
    by_cases hd : dim ∈ sv
    · rw [if_pos hd]
      refine ih _ ?_
      refine nodup_dom_setdefault ?_
      rw [dom_nbAppend]
      exact hx
    · rw [if_neg hd]
      exact ih _ hx

theorem addAllEdges_dom_mono (sv : List Name) :
    ∀ (msd : List (Name × List Name)) (nbrs : Nbrs) (x : Name),
    x ∈ dom nbrs → x ∈ dom (addAllEdges sv msd nbrs) := by
  intro msd
  induction msd with
  | nil => intro nbrs x hx; simpa [addAllEdges] using hx
  | cons kd rest ih =>
    intro nbrs x hx
    simp only [addAllEdges]
    exact ih _ x (addDims_dom_mono _ _ _ _ x hx)

theorem addAllEdges_nodup (sv : List Name) :
    ∀ (msd : List (Name × List Name)) (nbrs : Nbrs),
    (dom nbrs).Nodup → (dom (addAllEdges sv msd nbrs)).Nodup := by
  intro msd
  induction msd with
  | nil => intro nbrs hx; simpa [addAllEdges] using hx
  | cons kd rest ih =>
    intro nbrs hx
    simp only [addAllEdges]
    exact ih _ (addDims_nodup _ _ _ _ hx)

theorem mem_dom_build {msd : List (Name × List Name)} {sv : List Name} {k : Name}
    (hk : k ∈ msd.map Prod.fst) : k ∈ dom (buildNeighbors msd sv) := by
  unfold buildNeighbors
  refine addAllEdges_dom_mono sv msd _ k ?_
  unfold dom
  rw [List.map_map]
  simpa using hk

theorem dom_build_nodup {msd : List (Name × List Name)} {sv : List Name}
    (hnd : (msd.map Prod.fst).Nodup) : (dom (buildNeighbors msd sv)).Nodup := by
  unfold buildNeighbors
  refine addAllEdges_nodup sv msd _ ?_
  unfold dom
  rw [List.map_map]
  simpa using hnd

/-- Claim C4 is false as stated when a cost-term name is itself one of the
enumerated variables: for `model_sum_deps = ("a" ↦ ("b"))` and
`sum_vars = ("a", "b")`, the dependency set of the cost term `"a"`
intersects `sum_vars`, yet `_partition` returns the empty list, so `"a"`
appears in no pair's factor-name set (the whole component is filtered into
the measures because `"a" ∈ sum_vars`). -/
theorem claim_C4_cex :
    partitionFn [("a", ["b"])] ["a", "b"] 10 = some []
    ∧ (∃ d ∈ (["b"] : List Name), d ∈ (["a", "b"] : List Name))
    ∧ ¬∃ c ∈ ([] : List (List Name × List Name)), "a" ∈ c.1 := by
  refine ⟨rfl, ⟨"b", by simp, by simp⟩, by simp⟩

/-- Claim C4, amended with the hypothesis (true at the only call site,
where the keys of `model_sum_deps` exclude `sum_vars`) that no cost-term
name is itself an enumerated variable: whenever `_partition` returns, the
factor-name sets of distinct returned pairs are pairwise disjoint, and
every cost-term name whose dependency set intersects `sum_vars` appears in
exactly one pair's factor-name set. -/
theorem claim_C4 (msd : List (Name × List Name)) (sv : List Name) (fuel : Nat)
    (res : List (List Name × List Name))
    (h : partitionFn msd sv fuel = some res)
    (hnd : (msd.map Prod.fst).Nodup)
    (hdisj : ∀ k ∈ msd.map Prod.fst, k ∉ sv) :
    res.Pairwise FactorsDisjoint
    ∧ ∀ k deps, (k, deps) ∈ msd → (∃ d ∈ deps, d ∈ sv) →
        res.countP (fun c => decide (k ∈ c.1)) = 1 := by
  unfold partitionFn at h
  have hpw : res.Pairwise FactorsDisjoint :=
    outerLoop_pairwise sv fuel _ [] res h (dom_build_nodup hnd) (by simp)
      List.Pairwise.nil
  refine ⟨hpw, ?_⟩
  intro k deps hmem _
  have hk : k ∈ msd.map Prod.fst := by
    exact List.mem_map.mpr ⟨(k, deps), hmem, rfl⟩
  have hcov := outerLoop_cover sv fuel _ [] res h k (mem_dom_build hk) (hdisj k hk)
  exact countP_eq_one_of_pairwise k res hpw hcov

/-- Witness for C4 (amended) at a concrete input: two cost terms, one
depending on the enumerated variable `"e1"`, partition into two disjoint
pairs, and `"t1"` appears in exactly one factor set. -/
theorem claim_C4_witness :
    ([(["t1"], ["e1"]), (["t2"], [])] : List (List Name × List Name)).Pairwise
        FactorsDisjoint
    ∧ ([(["t1"], ["e1"]), (["t2"], [])] : List (List Name × List Name)).countP
        (fun c => decide ("t1" ∈ c.1)) = 1 := by
  have h := claim_C4 [("t1", ["e1"]), ("t2", [])] ["e1"] 10
    [(["t1"], ["e1"]), (["t2"], [])] rfl (by simp) (by simp)
  exact ⟨h.1, h.2 "t1" ["e1"] (by simp) ⟨"e1", by simp, by simp⟩⟩

/-! ## Traces, sites and the ELBO estimators

Program execution is performed by external collaborators (`seed`, `trace`,
`replay`, `substitute`, `compute_log_probs`, `get_importance_trace`); the
estimators consume their results.  The embeddings below therefore take the
collaborators as function parameters from PRNG keys to traces or per-site
log-probability tables, and mirror the estimator logic of `elbo.py` on
those results.  A site record keeps the fields of the trace message that
the estimators read; `fnId` identifies the site's distribution object so
that the external `kl_divergence` collaborator can be passed as an oracle
on distribution identities. -/

abbrev Key := Nat

/-- Modelled from the spec: `jax.random.split` (external collaborator, not
under `src/`) — deterministic, collision-free key splitting producing `n`
sub-keys from one key, with no global generator state. -/
def prngSplit (k : Key) (n : Nat) : List Key :=
  (List.range n).map (Nat.pair k)

/-- Sub-key bound to `model_seed` by `model_seed, guide_seed =
random.split(rng_key)`. -/
def modelSeedOf (k : Key) : Key := (prngSplit k 2).getD 0 0

/-- Sub-key bound to `guide_seed`. -/
def guideSeedOf (k : Key) : Key := (prngSplit k 2).getD 1 0

/-- Site kinds (`site["type"]` tags). -/
inductive SiteKind where
  | sample
  | param
  | mutableKind
  | plate
  | deterministic
deriving DecidableEq

/-- Site record: the fields of a trace message read by the estimators.
`logProb` is the (already computed) tensor `site["fn"].log_prob(site["value"]
[, intermediates])`, i.e. `site["log_prob"]`; `scale` is `site["scale"]`
(`none` for no scaling); `isAuxiliary` is `site["infer"].get("is_auxiliary")`;
`hasRsample` is `site["fn"].has_rsample`; `stack` is
`site["cond_indep_stack"]`. -/
structure Site where
  typ : SiteKind
  isObserved : Bool
  value : JTensor
  logProb : JTensor
  fnId : Nat
  scale : Option ℚ
  isAuxiliary : Bool
  hasRsample : Bool
  stack : List Frame

/-- Trace: insertion-ordered mapping from site names to site records. -/
abbrev Trace := List (String × Site)

/-- Collection of `mutable`-kind site values from a trace. -/
def collectMutable (tr : Trace) : List (String × JTensor) :=
  tr.filterMap (fun p =>
    if p.2.typ = SiteKind.mutableKind then some (p.1, p.2.value) else none)

/-- Python `dict.update`: overwrite existing keys, append new ones. -/
def updateAssoc (m upd : List (String × JTensor)) : List (String × JTensor) :=
  upd.foldl
    (fun acc p =>
      if (acc.lookup p.1).isSome then
        acc.map (fun q => if q.1 = p.1 then p else q)
      else acc ++ [p])
    m

/-- Detector for one direction of the model/guide mismatch: some
non-observed sample site of `tr` has no site in `other`. -/
def mismatchB (tr other : Trace) : Bool :=
  tr.any (fun p =>
    p.2.typ == SiteKind.sample && !p.2.isObserved && (other.lookup p.1).isNone)

/-- Errors raised by the estimators. -/
inductive ElboErr where
  | modelGuideMismatch
  | missingGuideSample
  | assertionFailed
  | keyMissing
  | configError
deriving DecidableEq

/-- Modelled from the spec: `check_model_guide_match` (from
`numpyro.util`, not under `src/`) raises a structural model/guide mismatch
error when the guide trace contains a non-observed sample site with no
corresponding site in the model trace, or the model trace contains a
non-observed sample site with no corresponding guide site. -/
def checkModelGuideMatch (modelTr guideTr : Trace) : Except ElboErr Unit :=
  if mismatchB modelTr guideTr || mismatchB guideTr modelTr then
    .error .modelGuideMismatch
  else .ok ()

/-- Python `dict.get(name, 0.0)` on a per-site log-probability table. -/
def getD (m : List (String × ℚ)) (n : String) : ℚ := (m.lookup n).getD 0

/-- Union `set(model_log_probs).union(guide_log_probs)` of the site names
of the two log-probability tables (as a duplicate-free list). -/
def unionNames (mlp glp : List (String × ℚ)) : List String :=
  (mlp.map Prod.fst ++ glp.map Prod.fst).dedup

/-- Dict comprehension of `Trace_ELBO`: per-site contribution
`model_log_probs.get(name, 0.0) - guide_log_probs.get(name, 0.0)` for
every name in the union. -/
def elboSiteList (mlp glp : List (String × ℚ)) : List (String × ℚ) :=
  (unionNames mlp glp).map (fun n => (n, getD mlp n - getD glp n))

/-- Python `sum(_elbo_particle.values(), start=jnp.array(0.0))`. -/
def elboSum (mlp glp : List (String × ℚ)) : ℚ :=
  ((elboSiteList mlp glp).map Prod.snd).sum

/-- Loss payload: a scalar, or a per-site dictionary when `sum_sites` is
false. -/
inductive LossVal where
  | scalar (x : ℚ)
  | perSite (d : List (String × ℚ))

/-- Negation `jax.tree.map(jnp.negative, elbo)`. -/
def negLoss : LossVal → LossVal
  | .scalar x => .scalar (-x)
  | .perSite d => .perSite (d.map (fun p => (p.1, -p.2)))

/-- Per-site value of a stacked loss (used to model the vectorized mean). -/
def siteVal (n : String) : LossVal → ℚ
  | .scalar _ => 0
  | .perSite d => getD d n

/-- Scalar value of a stacked loss. -/
def scalarVal : LossVal → ℚ
  | .scalar x => x
  | .perSite _ => 0

/-- Combination `jax.tree.map(lambda x: -jnp.mean(x), elbos)` of the
stacked per-particle losses (all particles share one tree structure, fixed
by the first particle, as under `vmap`). -/
def negMeanLoss (l : List LossVal) (n : ℚ) : LossVal :=
  match l with
  | [] => .scalar 0
  | .scalar _ :: _ => .scalar (-((l.map scalarVal).sum / n))
  | .perSite d :: _ => .perSite (d.map (fun p => (p.1, -((l.map (siteVal p.1)).sum / n))))

/-- Stacked mutable-state output of the vectorized map: every particle
returns the same tree structure; for more than one particle each slot is
`None` (proved below), which stacks to `None`.  The first slot is taken as
the representative of the stacked structure. -/
def vmapMutable (l : List (Option (List (String × JTensor)))) :
    Option (List (String × JTensor)) :=
  (l.head?).getD none

/-- Sequencing of the per-particle evaluations (the vectorized or
sequential map over particles): first error wins. -/
def mapExcept {α ε β : Type} (f : α → Except ε β) : List α → Except ε (List β)
  | [] => .ok []
  | x :: l =>
    match f x with
    | .error e => .error e
    | .ok b => (mapExcept f l).map (fun bs => b :: bs)

/-- Warning text of the dropped multi-particle mutable state. -/
def warnMutableMsg : String :=
  "mutable state is currently ignored when num_particles greater than one"

/-- Output of one particle: the (pre-negation) ELBO value, the mutable
state slot, and the emitted warnings (the `warnings.warn` side channel
made explicit). -/
structure ParticleOut where
  elbo : LossVal
  mutableState : Option (List (String × JTensor))
  warns : List String

/-- Shared tail of both `loss_with_mutable_state` implementations:
`if mutable_params: if num_particles == 1: return elbo, mutable_params;
warn(...)` then `return elbo, None`. -/
def mutablePolicy (numParticles : Nat) (elbo : LossVal)
    (ps : List (String × JTensor)) : ParticleOut :=
  if ps.isEmpty then ⟨elbo, none, []⟩
  else if numParticles = 1 then ⟨elbo, some ps, []⟩
  else ⟨elbo, none, [warnMutableMsg]⟩

/-- Configuration of `Trace_ELBO`. -/
structure TraceElboCfg where
  numParticles : Nat := 1
  multiSampleGuide : Bool := false
  sumSites : Bool := true

/-- Body of `Trace_ELBO.loss_with_mutable_state.single_particle_elbo`.
External collaborators: `guideExec key` is
`compute_log_probs(seed(guide, key), args, kwargs, param_map)`;
`modelExec key guide_trace mutable_params` is
`compute_log_probs(replay(seed(model, key), guide_trace), args, kwargs,
params)` with `params = param_map ∪ mutable_params` (the following
`_validate_model` call only warns in loose mode); `msModelExec` is the
multi-sample-guide branch's vectorized-and-summed model log-probability
table (its internal `vmap` over per-sample seeds is absorbed into the
collaborator). -/
def traceElboParticle (cfg : TraceElboCfg)
    (guideExec : Key → List (String × ℚ) × Trace)
    (modelExec : Key → Trace → List (String × JTensor) → List (String × ℚ) × Trace)
    (msModelExec : Key → Trace → List (String × JTensor) → List (String × ℚ))
    (k : Key) : Except ElboErr ParticleOut :=
  let guideLogProbs := (guideExec (guideSeedOf k)).1
  let guideTrace := (guideExec (guideSeedOf k)).2
  let mutableParams := collectMutable guideTrace
  if cfg.multiSampleGuide then
    if guideTrace.any (fun p => p.2.typ == SiteKind.sample) then
      let modelLogProbs := msModelExec (modelSeedOf k) guideTrace mutableParams
      let elbo : LossVal :=
        if cfg.sumSites then .scalar (elboSum modelLogProbs guideLogProbs)
        else .perSite (elboSiteList modelLogProbs guideLogProbs)
      .ok (mutablePolicy cfg.numParticles elbo mutableParams)
    else .error .missingGuideSample
  else
    let modelLogProbs := (modelExec (modelSeedOf k) guideTrace mutableParams).1
    let modelTrace := (modelExec (modelSeedOf k) guideTrace mutableParams).2
    match checkModelGuideMatch modelTrace guideTrace with
    | .error e => .error e
    | .ok _ =>
      let mutableParams' := updateAssoc mutableParams (collectMutable modelTrace)
      let elbo : LossVal :=
        if cfg.sumSites then .scalar (elboSum modelLogProbs guideLogProbs)
        else .perSite (elboSiteList modelLogProbs guideLogProbs)
      .ok (mutablePolicy cfg.numParticles elbo mutableParams')

/-- Result of `loss_with_mutable_state`. -/
structure LossMS where
  loss : LossVal
  mutableState : Option (List (String × JTensor))
  warns : List String

/-- Method `Trace_ELBO.loss_with_mutable_state`: one particle directly, or
the split keys mapped over `single_particle_elbo` and combined by the
negated mean. -/
def traceElboLossWithMS (cfg : TraceElboCfg)
    (guideExec : Key → List (String × ℚ) × Trace)
    (modelExec : Key → Trace → List (String × JTensor) → List (String × ℚ) × Trace)
    (msModelExec : Key → Trace → List (String × JTensor) → List (String × ℚ))
    (k : Key) : Except ElboErr LossMS :=
  if cfg.numParticles = 1 then
    match traceElboParticle cfg guideExec modelExec msModelExec k with
    | .error e => .error e
    | .ok p => .ok ⟨negLoss p.elbo, p.mutableState, p.warns⟩
  else
    match mapExcept (traceElboParticle cfg guideExec modelExec msModelExec)
        (prngSplit k cfg.numParticles) with
    | .error e => .error e
    | .ok ps =>
      .ok ⟨negMeanLoss (ps.map (fun p => p.elbo)) (cfg.numParticles : ℚ),
           vmapMutable (ps.map (fun p => p.mutableState)),
           (ps.map (fun p => p.warns)).flatten⟩

/-- Modelled from the spec: `scale_and_mask` (from
`numpyro.distributions.util`, not under `src/`) multiplies the log-density
tensor by the site's scale factor (identity when the scale is `None`;
scalar scales, the case exercised here). -/
def scaleAndMask (lp : JTensor) : Option ℚ → JTensor
  | none => lp
  | some c => smul c lp

/-- Helper `_get_log_prob_sum(site)`:
`jnp.sum(scale_and_mask(site["fn"].log_prob(site["value"][, intermediates]),
site["scale"]))`. -/
def logProbSum (site : Site) : ℚ :=
  totalSum (scaleAndMask site.logProb site.scale)

/-- Shared sample-site names of `_check_mean_field_requirement`, in trace
order: sample sites of `tr` whose name also occurs in `other`. -/
def mfSharedOrder (tr other : Trace) : List String :=
  tr.filterMap (fun p =>
    if p.2.typ = SiteKind.sample ∧ (other.lookup p.1).isSome then some p.1
    else none)

/-- Warning text of the mean-field ordering check. -/
def warnMeanFieldMsg : String :=
  "failed to verify mean field restriction on the guide"

/-- Model-site loop of `TraceMeanField_ELBO.loss_with_mutable_state`: for
every model sample site, the observed contribution is its scaled, summed
log-density; a latent site looks up its guide site (a missing one is the
KeyError), tries the analytic KL through the external `kl_divergence`
oracle (`none` is the NotImplementedError), scales it by the guide site's
scale, negates and sums it, and otherwise falls back to the difference of
the two log-probability sums. -/
def mfModelEntries (kl : Nat → Nat → Option JTensor) (guideTr : Trace) :
    List (String × Site) → Except ElboErr (List (String × ℚ))
  | [] => .ok []
  | (name, ms) :: rest =>
    if ms.typ = SiteKind.sample then
      if ms.isObserved then
        (mfModelEntries kl guideTr rest).map (fun l => (name, logProbSum ms) :: l)
      else
        match guideTr.lookup name with
        | none => .error .keyMissing
        | some gs =>
          let contrib :=
            match kl gs.fnId ms.fnId with
            | some klT => -(totalSum (scaleAndMask klT gs.scale))
            | none => logProbSum ms - logProbSum gs
          (mfModelEntries kl guideTr rest).map (fun l => (name, contrib) :: l)
    else mfModelEntries kl guideTr rest

/-- Auxiliary-site loop: guide sample sites absent from the model trace
must be auxiliary or observed (a failing `assert` raises) and contribute
their negated log-density sum. -/
def mfAuxEntries (modelTr : Trace) :
    List (String × Site) → Except ElboErr (List (String × ℚ))
  | [] => .ok []
  | (name, gs) :: rest =>
    if gs.typ = SiteKind.sample ∧ (modelTr.lookup name).isNone then
      if gs.isAuxiliary = true ∨ gs.isObserved = true then
        (mfAuxEntries modelTr rest).map (fun l => (name, -(logProbSum gs)) :: l)
      else .error .assertionFailed
    else mfAuxEntries modelTr rest

/-- Per-site contribution dictionary `_elbo_particle` of the mean-field
estimator. -/
def mfElboDict (kl : Nat → Nat → Option JTensor) (modelTr guideTr : Trace) :
    Except ElboErr (List (String × ℚ)) :=
  match mfModelEntries kl guideTr modelTr, mfAuxEntries modelTr guideTr with
  | .ok m, .ok aux => .ok (m ++ aux)
  | .error e, _ => .error e
  | _, .error e => .error e

/-- Configuration of `TraceMeanField_ELBO`. -/
structure MeanFieldCfg where
  numParticles : Nat := 1
  sumSites : Bool := true

/-- Body of `TraceMeanField_ELBO.loss_with_mutable_state.single_particle_elbo`.
External collaborators: `guideExec key` is the trace of the seeded,
parameter-substituted guide; `modelExec key guide_trace mutable_params` is
the trace of the seeded model replayed against the guide trace with
parameters (including collected mutable values) substituted. -/
def meanFieldParticle (cfg : MeanFieldCfg) (kl : Nat → Nat → Option JTensor)
    (guideExec : Key → Trace)
    (modelExec : Key → Trace → List (String × JTensor) → Trace)
    (k : Key) : Except ElboErr ParticleOut :=
  let guideTrace := guideExec (guideSeedOf k)
  let mutableParams := collectMutable guideTrace
  let modelTrace := modelExec (modelSeedOf k) guideTrace mutableParams
  let mutableParams' := updateAssoc mutableParams (collectMutable modelTrace)
  match checkModelGuideMatch modelTrace guideTrace with
  | .error e => .error e
  | .ok _ =>
    -- `_check_mean_field_requirement`: the set equality of the shared
    -- sample-site names is asserted; an ordering mismatch only warns.
    if (mfSharedOrder modelTrace guideTrace).toFinset
        = (mfSharedOrder guideTrace modelTrace).toFinset then
      let mfWarns :=
        if mfSharedOrder modelTrace guideTrace
            = mfSharedOrder guideTrace modelTrace then ([] : List String)
        else [warnMeanFieldMsg]
      match mfElboDict kl modelTrace guideTrace with
      | .error e => .error e
      | .ok sites =>
        let elbo : LossVal :=
          if cfg.sumSites then .scalar ((sites.map Prod.snd).sum)
          else .perSite sites
        let out := mutablePolicy cfg.numParticles elbo mutableParams'
        .ok ⟨out.elbo, out.mutableState, mfWarns ++ out.warns⟩
    else .error .assertionFailed

/-- Method `TraceMeanField_ELBO.loss_with_mutable_state`. -/
def meanFieldLossWithMS (cfg : MeanFieldCfg) (kl : Nat → Nat → Option JTensor)
    (guideExec : Key → Trace)
    (modelExec : Key → Trace → List (String × JTensor) → Trace)
    (k : Key) : Except ElboErr LossMS :=
  if cfg.numParticles = 1 then
    match meanFieldParticle cfg kl guideExec modelExec k with
    | .error e => .error e
    | .ok p => .ok ⟨negLoss p.elbo, p.mutableState, p.warns⟩
  else
    match mapExcept (meanFieldParticle cfg kl guideExec modelExec)
        (prngSplit k cfg.numParticles) with
    | .error e => .error e
    | .ok ps =>
      .ok ⟨negMeanLoss (ps.map (fun p => p.elbo)) (cfg.numParticles : ℚ),
           vmapMutable (ps.map (fun p => p.mutableState)),
           (ps.map (fun p => p.warns)).flatten⟩


/-- Downstream-cost table of `TraceGraph_ELBO`: insertion-ordered mapping
from non-reparameterizable site names to `MultiFrameTensor` accumulators
(the `defaultdict(lambda: MultiFrameTensor())`). -/
abbrev DownstreamCosts := List (String × MFT)

/-- Defaultdict access: a missing key denotes an empty accumulator. -/
def dcGet (dc : DownstreamCosts) (k : String) : MFT := (dc.lookup k).getD []

/-- Store back an accumulator (first access inserts the key at the end). -/
def dcSet : DownstreamCosts → String → MFT → DownstreamCosts
  | [], k, m => [(k, m)]
  | (k', m') :: rest, k, m =>
    if k' = k then (k', m) :: rest else (k', m') :: dcSet rest k m

/-- Python `downstream_costs[key].add((site["cond_indep_stack"], t))`;
the failing `add` assertion is an error. -/
def dcAdd (dc : DownstreamCosts) (key : String) (stack : List Frame)
    (t : JTensor) : Except ElboErr DownstreamCosts :=
  match mftAdd (dcGet dc key) stack t with
  | none => .error .assertionFailed
  | some m => .ok (dcSet dc key m)

/-- Loop `for key in deps[name]: downstream_costs[key].add(...)`. -/
def dcAddAll (dc : DownstreamCosts) (keys : List String) (stack : List Frame)
    (t : JTensor) : Except ElboErr DownstreamCosts :=
  match keys with
  | [] => .ok dc
  | key :: rest =>
    match dcAdd dc key stack t with
    | .error e => .error e
    | .ok dc' => dcAddAll dc' rest stack t

/-- Model-side loop of `TraceGraph_ELBO`: accumulate `jnp.sum(log_prob)`
into the ELBO and add the site's log-probability to the accumulator of
every upstream non-reparameterizable site. -/
def graphModelPass (deps : String → List String) :
    List (String × Site) → ℚ → DownstreamCosts → Except ElboErr (ℚ × DownstreamCosts)
  | [], e, dc => .ok (e, dc)
  | (name, site) :: rest, e, dc =>
    if site.typ = SiteKind.sample then
      match dcAddAll dc (deps name) site.stack site.logProb with
      | .error err => .error err
      | .ok dc' => graphModelPass deps rest (e + totalSum site.logProb) dc'
    else graphModelPass deps rest e dc

/-- Guide-side loop: subtract `jnp.sum(log_prob)` (for a site without
reparameterized sampling the sum is wrapped in `stop_gradient`, the
identity on values) and add the negated log-probability to the upstream
accumulators. -/
def graphGuidePass (deps : String → List String) :
    List (String × Site) → ℚ → DownstreamCosts → Except ElboErr (ℚ × DownstreamCosts)
  | [], e, dc => .ok (e, dc)
  | (name, site) :: rest, e, dc =>
    if site.typ = SiteKind.sample then
      match dcAddAll dc (deps name) site.stack (tneg site.logProb) with
      | .error err => .error err
      | .ok dc' => graphGuidePass deps rest (e - totalSum site.logProb) dc'
    else graphGuidePass deps rest e dc

/-- Surrogate loop: for every non-reparameterizable site, re-aggregate its
downstream cost to the site's own context stack and add the REINFORCE
surrogate together with the subtraction of its own detached copy:
`elbo + surrogate - stop_gradient(surrogate)`; `stop_gradient` is the
identity on values. -/
def graphSurrogatePass (guideTr : Trace) :
    List (String × MFT) → ℚ → Except ElboErr ℚ
  | [], e => .ok e
  | (node, cost) :: rest, e =>
    match guideTr.lookup node with
    | none => .error .keyMissing
    | some gs =>
      match sumTo cost gs.stack with
      | none => .error .assertionFailed
      | some dcT =>
        match bmul gs.logProb dcT with
        | none => .error .assertionFailed
        | some prod =>
          let surrogate := totalSum prod
          graphSurrogatePass guideTr rest (e + surrogate - surrogate)

/-- Body of `TraceGraph_ELBO.loss.single_particle_elbo`, consuming the
importance traces and the provenance maps.  `get_nonreparam_deps` is an
external shape-only execution, so the dependency maps are parameters; the
dictionary accesses `model_deps[name]` and `guide_deps[name]` are modelled
by total functions (provenance produces an entry for every sample site);
the strict `_validate_model` plate check is an external validation
abstracted away. -/
def graphParticle (modelTr guideTr : Trace)
    (modelDeps guideDeps : String → List String) : Except ElboErr ℚ :=
  match checkModelGuideMatch modelTr guideTr with
  | .error e => .error e
  | .ok _ =>
    match graphModelPass modelDeps modelTr 0 [] with
    | .error e => .error e
    | .ok (e1, dc1) =>
      match graphGuidePass guideDeps guideTr e1 dc1 with
      | .error e => .error e
      | .ok (e2, dc2) => graphSurrogatePass guideTr dc2 e2

/-- Method `TraceGraph_ELBO.loss`: negated single particle, or the negated
mean over the split particle keys. -/
def graphLoss (numParticles : Nat)
    (exec : Key → Trace × Trace × (String → List String) × (String → List String))
    (k : Key) : Except ElboErr ℚ :=
  let particle := fun k' =>
    let i := exec k'
    graphParticle i.1 i.2.1 i.2.2.1 i.2.2.2
  if numParticles = 1 then
    match particle k with
    | .error e => .error e
    | .ok v => .ok (-v)
  else
    match mapExcept particle (prngSplit k numParticles) with
    | .error e => .error e
    | .ok vs => .ok (-(vs.sum / (numParticles : ℚ)))

/-- Plain sum-of-log-ratios value, written from the claim: the sum of the
model sample-site log-probability totals minus the sum of the guide
sample-site log-probability totals. -/
def plainLogRatioElbo (modelTr guideTr : Trace) : ℚ :=
  ((modelTr.filter (fun p => decide (p.2.typ = SiteKind.sample))).map
      (fun p => totalSum p.2.logProb)).sum
  - ((guideTr.filter (fun p => decide (p.2.typ = SiteKind.sample))).map
      (fun p => totalSum p.2.logProb)).sum

/-- Constructed `RenyiELBO` estimator state. -/
structure RenyiElbo where
  alpha : ℚ
  numParticles : Nat

/-- Constructor `RenyiELBO.__init__(alpha=0, num_particles=2)`: rejects
`alpha == 1` with a configuration error. -/
def renyiInit (alpha : ℚ := 0) (numParticles : Nat := 2) : Except ElboErr RenyiElbo :=
  if alpha = 1 then .error .configError
  else .ok ⟨alpha, numParticles⟩

/-- Per-particle sub-key sequence of the trace-style estimators
(`rng_keys = random.split(rng_key, self.num_particles)`). -/
def elboParticleKeys (k : Key) (np : Nat) : List Key := prngSplit k np

/-- Per-particle sub-key sequence of `RenyiELBO.loss`: a plate key is
split off first (`plate_key, rng_key = random.split(rng_key)`), then the
remaining key is split over the particles. -/
def renyiParticleKeys (k : Key) (np : Nat) : List Key :=
  prngSplit ((prngSplit k 2).getD 1 0) np

/-- Claim C6: constructing `RenyiELBO` with `alpha` equal to 1 raises a
configuration error, construction succeeds for every other `alpha`, and
when `num_particles` is not supplied the constructed estimator has
`num_particles = 2`. -/
theorem claim_C6 :
    (∀ (a : ℚ) (n : Nat), (∃ e, renyiInit a n = .error e) ↔ a = 1)
    ∧ (∀ (a : ℚ) (n : Nat), a ≠ 1 → renyiInit a n = .ok ⟨a, n⟩)
    ∧ (∀ a : ℚ, a ≠ 1 → renyiInit a = .ok ⟨a, 2⟩) := by
  refine ⟨fun a n => ⟨?_, ?_⟩, fun a n ha => by simp [renyiInit, ha],
    fun a ha => by simp [renyiInit, ha]⟩
  · rintro ⟨e, he⟩
    by_cases ha : a = 1
    · exact ha
    · simp [renyiInit, ha] at he
  · rintro rfl
    exact ⟨.configError, by simp [renyiInit]⟩

/-- Witness for C6: `alpha = 1` errors; `alpha = 0` with 7 particles
succeeds; `alpha = 1/2` with the default particle count gives 2. -/
theorem claim_C6_witness :
    (∃ e, renyiInit 1 5 = .error e)
    ∧ renyiInit 0 7 = .ok ⟨0, 7⟩
    ∧ renyiInit (1/2) = .ok ⟨1/2, 2⟩ :=
  ⟨(claim_C6.1 1 5).mpr rfl, claim_C6.2.1 0 7 (by norm_num),
   claim_C6.2.2 (1/2) (by norm_num)⟩

/-- Claim C9: for every estimator, fixed collaborators and particle count,
two calls with the same top-level key produce the same sequence of
per-particle sub-keys (the deterministic split of the embedded pure
key-splitting function, with no global generator state) and the same
returned loss. -/
theorem claim_C9 : ∀ k1 k2 : Key, k1 = k2 →
    (∀ np, elboParticleKeys k1 np = elboParticleKeys k2 np
      ∧ elboParticleKeys k1 np = prngSplit k1 np)
    ∧ (∀ np, renyiParticleKeys k1 np = renyiParticleKeys k2 np)
    ∧ (∀ cfg gE mE msE, traceElboLossWithMS cfg gE mE msE k1
        = traceElboLossWithMS cfg gE mE msE k2)
    ∧ (∀ cfg kl gE mE, meanFieldLossWithMS cfg kl gE mE k1
        = meanFieldLossWithMS cfg kl gE mE k2)
    ∧ (∀ np exec, graphLoss np exec k1 = graphLoss np exec k2) := by
  rintro k1 k2 rfl
  exact ⟨fun _ => ⟨rfl, rfl⟩, fun _ => rfl, fun _ _ _ _ => rfl,
    fun _ _ _ _ => rfl, fun _ _ => rfl⟩

/-- Witness for C9 at the concrete key 5 and three particles. -/
theorem claim_C9_witness :
    elboParticleKeys 5 3 = prngSplit 5 3
    ∧ renyiParticleKeys 5 3 = renyiParticleKeys 5 3 :=
  ⟨((claim_C9 5 5 rfl).1 3).2, (claim_C9 5 5 rfl).2.1 3⟩

theorem graphModelPass_val (deps : String → List String) :
    ∀ (l : List (String × Site)) (e : ℚ) (dc : DownstreamCosts) (e' : ℚ)
      (dc' : DownstreamCosts),
    graphModelPass deps l e dc = .ok (e', dc') →
    e' = e + ((l.filter (fun p => decide (p.2.typ = SiteKind.sample))).map
        (fun p => totalSum p.2.logProb)).sum := by
  intro l
  induction l with
  | nil =>
    intro e dc e' dc' h
    simp only [graphModelPass, Except.ok.injEq, Prod.mk.injEq] at h
    simp [← h.1]
  | cons p rest ih =>
    intro e dc e' dc' h
    obtain ⟨name, site⟩ := p
    by_cases hs : site.typ = SiteKind.sample
    · rw [graphModelPass, if_pos hs] at h
      cases hd : dcAddAll dc (deps name) site.stack site.logProb with
      | error err => rw [hd] at h; exact absurd h (by simp)
      | ok dc1 =>
        rw [hd] at h
        have := ih _ _ _ _ h
        rw [this]
        simp [hs]
        ring
    · rw [graphModelPass, if_neg hs] at h
      have := ih _ _ _ _ h
      rw [this]
      simp [hs]

theorem graphGuidePass_val (deps : String → List String) :
    ∀ (l : List (String × Site)) (e : ℚ) (dc : DownstreamCosts) (e' : ℚ)
      (dc' : DownstreamCosts),
    graphGuidePass deps l e dc = .ok (e', dc') →
    e' = e - ((l.filter (fun p => decide (p.2.typ = SiteKind.sample))).map
        (fun p => totalSum p.2.logProb)).sum := by
  intro l
  induction l with
  | nil =>
    intro e dc e' dc' h
    simp only [graphGuidePass, Except.ok.injEq, Prod.mk.injEq] at h
    simp [← h.1]
  | cons p rest ih =>
    intro e dc e' dc' h
    obtain ⟨name, site⟩ := p
    by_cases hs : site.typ = SiteKind.sample
    · rw [graphGuidePass, if_pos hs] at h
      cases hd : dcAddAll dc (deps name) site.stack (tneg site.logProb) with
      | error err => rw [hd] at h; exact absurd h (by simp)
      | ok dc1 =>
        rw [hd] at h
        have := ih _ _ _ _ h
        rw [this]
        simp [hs]
        ring
    · rw [graphGuidePass, if_neg hs] at h
      have := ih _ _ _ _ h
      rw [this]
      simp [hs]

theorem graphSurrogatePass_val (guideTr : Trace) :
    ∀ (l : List (String × MFT)) (e e' : ℚ),
    graphSurrogatePass guideTr l e = .ok e' → e' = e := by
  intro l
  induction l with
  | nil =>
    intro e e' h
    simp only [graphSurrogatePass, Except.ok.injEq] at h
    exact h.symm
  | cons p rest ih =>
    intro e e' h
    obtain ⟨node, cost⟩ := p
    rw [graphSurrogatePass] at h
    cases hg : guideTr.lookup node with
    | none => rw [hg] at h; exact absurd h (by simp)
    | some gs =>
      simp only [hg] at h
      cases hst : sumTo cost gs.stack with
      | none => simp only [hst] at h; exact absurd h (by simp)
      | some dcT =>
        simp only [hst] at h
        cases hm : bmul gs.logProb dcT with
        | none => simp only [hm] at h; exact absurd h (by simp)
        | some prod =>
          simp only [hm] at h
          have := ih _ _ h
          rw [this]
          ring

/-- Claim C3: in the dependency-tracking estimator every REINFORCE
surrogate term is added together with the subtraction of its own detached
copy, so the surrogates contribute zero to the value; consequently a
single-particle evaluation of the loss returns exactly the negated plain
sum-of-log-ratios value (sum of model sample-site log-probabilities minus
sum of guide sample-site log-probabilities). -/
theorem claim_C3 :
    (∀ (modelTr guideTr : Trace) (md gd : String → List String) (e : ℚ),
        graphParticle modelTr guideTr md gd = .ok e →
        e = plainLogRatioElbo modelTr guideTr)
    ∧ (∀ (exec : Key → Trace × Trace × (String → List String) × (String → List String))
        (k : Key) (v : ℚ), graphLoss 1 exec k = .ok v →
        v = -(plainLogRatioElbo (exec k).1 (exec k).2.1)) := by
  have hpart : ∀ (modelTr guideTr : Trace) (md gd : String → List String) (e : ℚ),
      graphParticle modelTr guideTr md gd = .ok e →
      e = plainLogRatioElbo modelTr guideTr := by
    intro modelTr guideTr md gd e h
    unfold graphParticle at h
    cases hc : checkModelGuideMatch modelTr guideTr with
    | error err => rw [hc] at h; exact absurd h (by simp)
    | ok u =>
      simp only [hc] at h
      cases hm : graphModelPass md modelTr 0 [] with
      | error err => simp only [hm] at h; exact absurd h (by simp)
      | ok p1 =>
        obtain ⟨e1, dc1⟩ := p1
        simp only [hm] at h
        cases hg : graphGuidePass gd guideTr e1 dc1 with
        | error err => simp only [hg] at h; exact absurd h (by simp)
        | ok p2 =>
          obtain ⟨e2, dc2⟩ := p2
          simp only [hg] at h
          have h1 := graphModelPass_val md modelTr 0 [] e1 dc1 hm
          have h2 := graphGuidePass_val gd guideTr e1 dc1 e2 dc2 hg
          have h3 := graphSurrogatePass_val guideTr dc2 e2 e h
          rw [h3, h2, h1]
          unfold plainLogRatioElbo
          ring
  refine ⟨hpart, ?_⟩
  intro exec k v h
  cases hp : graphParticle (exec k).1 (exec k).2.1 (exec k).2.2.1 (exec k).2.2.2 with
  | error err => simp [graphLoss, hp] at h
  | ok e =>
    simp [graphLoss, hp] at h
    rw [← h, hpart _ _ _ _ _ hp]

/-- Concrete observed sample site used by witnesses. -/
def wObs (lp : ℚ) : Site :=
  ⟨SiteKind.sample, true, .s 0, .s lp, 0, none, false, true, []⟩

/-- Concrete latent sample site used by witnesses. -/
def wLatent (fnId : Nat) (lp : ℚ) (rs : Bool) : Site :=
  ⟨SiteKind.sample, false, .s 0, .s lp, fnId, none, false, rs, []⟩

/-- Concrete mutable site used by witnesses. -/
def wMut (v : ℚ) : Site :=
  ⟨SiteKind.mutableKind, false, .s v, .s 0, 0, none, false, true, []⟩

/-- Concrete model/guide execution for the graph-estimator witness: one
non-reparameterizable latent `"z"` whose downstream cost is tracked. -/
def graphExecW : Key → Trace × Trace × (String → List String) × (String → List String) :=
  fun _ => ([("z", wLatent 1 3 true)],
            [("z", wLatent 0 2 false)],
            (fun n => if n = "z" then ["z"] else []),
            (fun n => if n = "z" then ["z"] else []))

/-- Witness for C3 at a concrete model/guide pair: the single-particle
loss is exactly the negated plain log-ratio value. -/
theorem claim_C3_witness :
    graphLoss 1 graphExecW 9
      = .ok (-(plainLogRatioElbo (graphExecW 9).1 (graphExecW 9).2.1)) := by
  have hv : graphLoss 1 graphExecW 9 = .ok (-1) := by
    norm_num [graphLoss, graphParticle, checkModelGuideMatch, mismatchB,
      graphModelPass, graphGuidePass, graphSurrogatePass, dcAddAll, dcAdd,
      dcGet, dcSet, mftAdd, frameOkB, sumTo, sumToAux, processEntry,
      reduceFrames, squeezeLead, bmul, badd, bop, totalSum, tneg, smul,
      smulList, wObs, wLatent, graphExecW, List.lookup, beq_iff_eq]
  have h1 := claim_C3.2 graphExecW 9 (-1) hv
  rw [hv, h1]

theorem mem_unionNames {mlp glp : List (String × ℚ)} {n : String} :
    n ∈ unionNames mlp glp ↔ n ∈ mlp.map Prod.fst ∨ n ∈ glp.map Prod.fst := by
  simp [unionNames]

theorem lookup_map_self (v : String → ℚ) :
    ∀ (l : List String) (n : String), n ∈ l →
      (l.map (fun m => (m, v m))).lookup n = some (v n) := by
  intro l
  induction l with
  | nil => intro n hn; simp at hn
  | cons m l ih =>
    intro n hn
    by_cases hnm : n = m
    · subst hnm
      simp [List.lookup]
    · have : n ∈ l := by
        rcases List.mem_cons.mp hn with h | h
        · exact absurd h hnm
        · exact h
      have hbeq : (n == m) = false := by simp [hnm]
      simp only [List.map_cons, List.lookup, hbeq]
      exact ih n this

theorem dedup_toFinset (l : List String) : l.dedup.toFinset = l.toFinset := by
  ext x
  simp [List.mem_toFinset, List.mem_dedup]

/-- Claim C1: in every single-particle evaluation of the plain trace
estimator the contributions are computed for every name in the union of
the model's and the guide's log-probability tables; the per-site
contribution is the model log-probability minus the guide log-probability
with a missing side treated as zero; with `sum_sites` the contributions
are summed into one scalar (the sum over the union of names); and the
loss returned by `loss_with_mutable_state` is the negation of this
quantity (a per-site dictionary of negated contributions otherwise). -/
theorem claim_C1 :
    (∀ (mlp glp : List (String × ℚ)) (n : String),
        n ∈ (elboSiteList mlp glp).map Prod.fst
          ↔ n ∈ mlp.map Prod.fst ∨ n ∈ glp.map Prod.fst)
    ∧ (∀ (mlp glp : List (String × ℚ)) (n : String),
        n ∈ mlp.map Prod.fst ∨ n ∈ glp.map Prod.fst →
        (elboSiteList mlp glp).lookup n = some (getD mlp n - getD glp n))
    ∧ (∀ mlp glp : List (String × ℚ), elboSum mlp glp
        = ∑ n ∈ ((mlp.map Prod.fst).toFinset ∪ (glp.map Prod.fst).toFinset),
            (getD mlp n - getD glp n))
    ∧ (∀ (cfg : TraceElboCfg) gE mE msE (k : Key) (r : LossMS),
        cfg.numParticles = 1 → cfg.multiSampleGuide = false →
        traceElboLossWithMS cfg gE mE msE k = .ok r →
        r.loss = negLoss (if cfg.sumSites
          then .scalar (elboSum
            (mE (modelSeedOf k) (gE (guideSeedOf k)).2
              (collectMutable (gE (guideSeedOf k)).2)).1
            (gE (guideSeedOf k)).1)
          else .perSite (elboSiteList
            (mE (modelSeedOf k) (gE (guideSeedOf k)).2
              (collectMutable (gE (guideSeedOf k)).2)).1
            (gE (guideSeedOf k)).1))) := by
  refine ⟨?_, ?_, ?_, ?_⟩
  · intro mlp glp n
    simp only [elboSiteList, List.map_map]
    constructor
    · intro h
      rcases List.mem_map.mp h with ⟨m, hm, rfl⟩
      exact mem_unionNames.mp hm
    · intro h
      exact List.mem_map.mpr ⟨n, mem_unionNames.mpr h, rfl⟩
  · intro mlp glp n h
    exact lookup_map_self _ _ n (mem_unionNames.mpr h)
  · intro mlp glp
    have hnd : (unionNames mlp glp).Nodup := List.nodup_dedup _
    have hfin : (unionNames mlp glp).toFinset
        = (mlp.map Prod.fst).toFinset ∪ (glp.map Prod.fst).toFinset := by
      unfold unionNames
      rw [dedup_toFinset, List.toFinset_append]
    calc elboSum mlp glp
        = ((unionNames mlp glp).map (fun n => getD mlp n - getD glp n)).sum := by
          unfold elboSum elboSiteList
          rw [List.map_map]
          rfl
      _ = (unionNames mlp glp).toFinset.sum (fun n => getD mlp n - getD glp n) :=
          (List.sum_toFinset _ hnd).symm
      _ = ∑ n ∈ ((mlp.map Prod.fst).toFinset ∪ (glp.map Prod.fst).toFinset),
            (getD mlp n - getD glp n) := by rw [hfin]
  · intro cfg gE mE msE k r hnp hms h
    unfold traceElboLossWithMS at h
    rw [if_pos hnp] at h
    cases hp : traceElboParticle cfg gE mE msE k with
    | error e => rw [hp] at h; exact absurd h (by simp)
    | ok p =>
      simp only [hp, Except.ok.injEq] at h
      have helbo : p.elbo = (if cfg.sumSites
          then LossVal.scalar (elboSum
            (mE (modelSeedOf k) (gE (guideSeedOf k)).2
              (collectMutable (gE (guideSeedOf k)).2)).1
            (gE (guideSeedOf k)).1)
          else LossVal.perSite (elboSiteList
            (mE (modelSeedOf k) (gE (guideSeedOf k)).2
              (collectMutable (gE (guideSeedOf k)).2)).1
            (gE (guideSeedOf k)).1)) := by
        unfold traceElboParticle at hp
        rw [hms] at hp
        simp only [Bool.false_eq_true, if_false] at hp
        cases hc : checkModelGuideMatch
            (mE (modelSeedOf k) (gE (guideSeedOf k)).2
              (collectMutable (gE (guideSeedOf k)).2)).2
            (gE (guideSeedOf k)).2 with
        | error e =>
          simp only [hc] at hp
          exact absurd hp (by simp)
        | ok u =>
          simp only [hc, Except.ok.injEq] at hp
          rw [← hp]
          unfold mutablePolicy
          split
          · rfl
          · split <;> rfl
      rw [← h, helbo]

/-- Concrete guide execution for the C1 witness. -/
def gExW : Key → List (String × ℚ) × Trace :=
  fun _ => ([("z", 2)], [("z", wLatent 0 2 true)])

/-- Concrete model execution for the C1 witness. -/
def mExW : Key → Trace → List (String × JTensor) → List (String × ℚ) × Trace :=
  fun _ _ _ => ([("z", 3), ("x", 5)], [("z", wLatent 1 3 true), ("x", wObs 5)])

/-- Degenerate multi-sample execution (unused: `multi_sample_guide` is
false in the witness). -/
def msExW : Key → Trace → List (String × JTensor) → List (String × ℚ) :=
  fun _ _ _ => []

/-- Witness for C1 at a concrete run: the returned loss is the negated
sum of the union contributions `(3 - 2) + (5 - 0) = 6`. -/
theorem claim_C1_witness :
    traceElboLossWithMS ⟨1, false, true⟩ gExW mExW msExW 0
      = .ok ⟨.scalar (-6), none, []⟩
    ∧ (LossMS.mk (.scalar (-6)) none []).loss
        = negLoss (.scalar (elboSum [("z", 3), ("x", 5)] [("z", 2)]))
    ∧ (elboSiteList [("z", 3), ("x", 5)] [("z", 2)]).lookup "x" = some (5 - 0) := by
  have hmid : traceElboLossWithMS ⟨1, false, true⟩ gExW mExW msExW 0
      = .ok ⟨.scalar (-((5 - 0) + ((3 - 2) + 0))), none, []⟩ := rfl
  have hrun : traceElboLossWithMS ⟨1, false, true⟩ gExW mExW msExW 0
      = .ok ⟨.scalar (-6), none, []⟩ := by rw [hmid]; norm_num
  refine ⟨hrun, ?_, ?_⟩
  · have h := claim_C1.2.2.2 ⟨1, false, true⟩ gExW mExW msExW 0
      ⟨.scalar (-6), none, []⟩ rfl rfl hrun
    simpa [gExW, mExW] using h
  · exact claim_C1.2.1 [("z", 3), ("x", 5)] [("z", 2)] "x" (by simp)

theorem traceElboParticle_mismatch (cfg : TraceElboCfg)
    (gE : Key → List (String × ℚ) × Trace)
    (mE : Key → Trace → List (String × JTensor) → List (String × ℚ) × Trace)
    (msE : Key → Trace → List (String × JTensor) → List (String × ℚ))
    (k : Key) (hms : cfg.multiSampleGuide = false)
    (hcond : (mismatchB
        (mE (modelSeedOf k) (gE (guideSeedOf k)).2
          (collectMutable (gE (guideSeedOf k)).2)).2 (gE (guideSeedOf k)).2
      || mismatchB (gE (guideSeedOf k)).2
        (mE (modelSeedOf k) (gE (guideSeedOf k)).2
          (collectMutable (gE (guideSeedOf k)).2)).2) = true) :
    traceElboParticle cfg gE mE msE k = .error .modelGuideMismatch := by
  have hc : checkModelGuideMatch
      (mE (modelSeedOf k) (gE (guideSeedOf k)).2
        (collectMutable (gE (guideSeedOf k)).2)).2 (gE (guideSeedOf k)).2
      = .error .modelGuideMismatch := by
    unfold checkModelGuideMatch
    rw [if_pos hcond]
  unfold traceElboParticle
  rw [hms]
  simp only [Bool.false_eq_true, if_false, hc]

theorem prngSplit_length (k : Key) (n : Nat) : (prngSplit k n).length = n := by
  simp [prngSplit]

/-- Claim C5: a call to the plain trace estimator in the default
(non-multi-sample-guide) mode whose guide trace contains a non-observed
sample site with no corresponding model site, or whose model trace
contains a non-observed sample site with no corresponding guide site,
raises the structural model/guide mismatch error instead of returning a
loss. -/
theorem claim_C5 (cfg : TraceElboCfg)
    (gE : Key → List (String × ℚ) × Trace)
    (mE : Key → Trace → List (String × JTensor) → List (String × ℚ) × Trace)
    (msE : Key → Trace → List (String × JTensor) → List (String × ℚ))
    (k : Key) (hms : cfg.multiSampleGuide = false)
    (hnp : 1 ≤ cfg.numParticles)
    (hcond : ∀ k' : Key, (mismatchB
        (mE (modelSeedOf k') (gE (guideSeedOf k')).2
          (collectMutable (gE (guideSeedOf k')).2)).2 (gE (guideSeedOf k')).2
      || mismatchB (gE (guideSeedOf k')).2
        (mE (modelSeedOf k') (gE (guideSeedOf k')).2
          (collectMutable (gE (guideSeedOf k')).2)).2) = true) :
    traceElboLossWithMS cfg gE mE msE k = .error .modelGuideMismatch := by
  by_cases h1 : cfg.numParticles = 1
  · unfold traceElboLossWithMS
    rw [if_pos h1]
    simp only [traceElboParticle_mismatch cfg gE mE msE k hms (hcond k)]
  · unfold traceElboLossWithMS
    rw [if_neg h1]
    cases hk : prngSplit k cfg.numParticles with
    | nil =>
      have := prngSplit_length k cfg.numParticles
      rw [hk] at this
      simp at this
      omega
    | cons k0 ks =>
      simp only [mapExcept, traceElboParticle_mismatch cfg gE mE msE k0 hms (hcond k0)]

/-- Concrete guide execution for the C5 witness: the guide has a latent
sample site `"w"` that is absent from the model trace. -/
def gExW5 : Key → List (String × ℚ) × Trace :=
  fun _ => ([("w", 2)], [("w", wLatent 0 2 true)])

/-- Concrete model execution for the C5 witness: an empty model trace. -/
def mExW5 : Key → Trace → List (String × JTensor) → List (String × ℚ) × Trace :=
  fun _ _ _ => ([], [])

/-- Witness for C5: with a guide-only latent site the call errors. -/
theorem claim_C5_witness :
    traceElboLossWithMS ⟨1, false, true⟩ gExW5 mExW5 msExW 0
      = .error .modelGuideMismatch :=
  claim_C5 ⟨1, false, true⟩ gExW5 mExW5 msExW 0 rfl (by norm_num)
    (fun k' => rfl)

/-- Value of a model sample site's contribution in the mean-field
estimator (proof-side abbreviation; the unreachable missing-guide case is
given an arbitrary value). -/
def mfContribVal (kl : Nat → Nat → Option JTensor) (guideTr : Trace)
    (name : String) (ms : Site) : ℚ :=
  if ms.isObserved then logProbSum ms
  else
    match guideTr.lookup name with
    | none => 0
    | some gs =>
      match kl gs.fnId ms.fnId with
      | some klT => -(totalSum (scaleAndMask klT gs.scale))
      | none => logProbSum ms - logProbSum gs

theorem lookup_append_of_isSome {α β : Type} [BEq α] :
    ∀ (a b : List (α × β)) (n : α), (a.lookup n).isSome →
      (a ++ b).lookup n = a.lookup n := by
  intro a
  induction a with
  | nil => intro b n h; simp [List.lookup] at h
  | cons p rest ih =>
    intro b n h
    obtain ⟨k', v'⟩ := p
    cases hb : n == k' with
    | true => simp [List.lookup, hb]
    | false =>
      rw [List.lookup, hb] at h
      simp only [List.cons_append, List.lookup, hb]
      exact ih b n h

theorem mfModelEntries_spec (kl : Nat → Nat → Option JTensor) (guideTr : Trace) :
    ∀ l : List (String × Site),
    (∀ name ms, (name, ms) ∈ l → ms.typ = SiteKind.sample →
      ms.isObserved = false → (guideTr.lookup name).isSome) →
    ∃ d, mfModelEntries kl guideTr l = .ok d
      ∧ (∀ p ∈ d, ∃ ms, (p.1, ms) ∈ l ∧ ms.typ = SiteKind.sample)
      ∧ ((l.map Prod.fst).Nodup →
          ∀ name ms, (name, ms) ∈ l → ms.typ = SiteKind.sample →
            d.lookup name = some (mfContribVal kl guideTr name ms)) := by
  intro l
  induction l with
  | nil =>
    intro hpres
    refine ⟨[], by simp [mfModelEntries], by simp, ?_⟩
    intro _ name ms hm
    simp at hm
  | cons p rest ih =>
    intro hpres
    obtain ⟨n0, s0⟩ := p
    have hpres' : ∀ name ms, (name, ms) ∈ rest → ms.typ = SiteKind.sample →
        ms.isObserved = false → (guideTr.lookup name).isSome :=
      fun name ms hm => hpres name ms (List.mem_cons_of_mem _ hm)
    obtain ⟨d, hd, hkeys, hlook⟩ := ih hpres'
    by_cases hs : s0.typ = SiteKind.sample
    · by_cases ho : s0.isObserved = true
      · refine ⟨(n0, logProbSum s0) :: d, ?_, ?_, ?_⟩
        · rw [mfModelEntries, if_pos hs, if_pos ho, hd]
          rfl
        · rintro q hq
          rcases List.mem_cons.mp hq with rfl | hq
          · exact ⟨s0, by simp, hs⟩
          · obtain ⟨ms, hm, ht⟩ := hkeys q hq
            exact ⟨ms, List.mem_cons_of_mem _ hm, ht⟩
        · intro hnd name ms hm ht
          rw [List.map_cons, List.nodup_cons] at hnd
          have hnd' := hnd
          rcases List.mem_cons.mp hm with heq | hmr
          · obtain ⟨rfl, rfl⟩ := Prod.mk.injEq .. ▸ heq
            have : (name == name) = true := by simp
            simp [List.lookup, this, mfContribVal, ho]
          · have hne : name ≠ n0 := by
              intro h
              exact hnd'.1 (List.mem_map.mpr ⟨(name, ms), hmr, h⟩)
            have hb : (name == n0) = false := by simp [hne]
            rw [List.lookup, hb]
            exact hlook hnd'.2 name ms hmr ht
      · have hobs : s0.isObserved = false := by
          cases h : s0.isObserved
          · rfl
          · exact absurd h ho
        have hsome := hpres n0 s0 (by simp) hs hobs
        cases hg : guideTr.lookup n0 with
        | none => rw [hg] at hsome; simp at hsome
        | some gs =>
          refine ⟨(n0, match kl gs.fnId s0.fnId with
            | some klT => -(totalSum (scaleAndMask klT gs.scale))
            | none => logProbSum s0 - logProbSum gs) :: d, ?_, ?_, ?_⟩
          · rw [mfModelEntries, if_pos hs, if_neg ho]
            simp only [hg, hd]
            rfl
          · rintro q hq
            rcases List.mem_cons.mp hq with rfl | hq
            · exact ⟨s0, by simp, hs⟩
            · obtain ⟨ms, hm, ht⟩ := hkeys q hq
              exact ⟨ms, List.mem_cons_of_mem _ hm, ht⟩
          · intro hnd name ms hm ht
            rw [List.map_cons, List.nodup_cons] at hnd
            have hnd' := hnd
            rcases List.mem_cons.mp hm with heq | hmr
            · obtain ⟨rfl, rfl⟩ := Prod.mk.injEq .. ▸ heq
              have hbeq : (name == name) = true := by simp
              rw [List.lookup, hbeq]
              unfold mfContribVal
              rw [if_neg (by simp [hobs]), hg]
            · have hne : name ≠ n0 := by
                intro h
                exact hnd'.1 (List.mem_map.mpr ⟨(name, ms), hmr, h⟩)
              have hb : (name == n0) = false := by simp [hne]
              rw [List.lookup, hb]
              exact hlook hnd'.2 name ms hmr ht
    · refine ⟨d, ?_, ?_, ?_⟩
      · rw [mfModelEntries, if_neg hs]
        exact hd
      · rintro q hq
        obtain ⟨ms, hm, ht⟩ := hkeys q hq
        exact ⟨ms, List.mem_cons_of_mem _ hm, ht⟩
      · intro hnd name ms hm ht
        rw [List.map_cons, List.nodup_cons] at hnd
        have hnd' := hnd
        rcases List.mem_cons.mp hm with heq | hmr
        · obtain ⟨rfl, rfl⟩ := Prod.mk.injEq .. ▸ heq
          exact absurd ht hs
        · exact hlook hnd'.2 name ms hmr ht

theorem mfAuxEntries_spec (modelTr : Trace) :
    ∀ l : List (String × Site),
    (∀ name gs, (name, gs) ∈ l → gs.typ = SiteKind.sample →
      (modelTr.lookup name).isNone = true →
      gs.isAuxiliary = true ∨ gs.isObserved = true) →
    ∃ aux, mfAuxEntries modelTr l = .ok aux
      ∧ ∀ p ∈ aux, (modelTr.lookup p.1).isNone = true := by
  intro l
  induction l with
  | nil =>
    intro hcond
    exact ⟨[], by simp [mfAuxEntries], by simp⟩
  | cons p rest ih =>
    intro hcond
    obtain ⟨n0, s0⟩ := p
    have hcond' : ∀ name gs, (name, gs) ∈ rest → gs.typ = SiteKind.sample →
        (modelTr.lookup name).isNone = true →
        gs.isAuxiliary = true ∨ gs.isObserved = true :=
      fun name gs hm => hcond name gs (List.mem_cons_of_mem _ hm)
    obtain ⟨aux, ha, hkeys⟩ := ih hcond'
    by_cases hg : s0.typ = SiteKind.sample ∧ (modelTr.lookup n0).isNone
    · have hao := hcond n0 s0 (by simp) hg.1 (by simpa using hg.2)
      refine ⟨(n0, -(logProbSum s0)) :: aux, ?_, ?_⟩
      · rw [mfAuxEntries, if_pos hg, if_pos hao, ha]
        rfl
      · rintro q hq
        rcases List.mem_cons.mp hq with rfl | hq
        · simpa using hg.2
        · exact hkeys q hq
    · refine ⟨aux, ?_, hkeys⟩
      rw [mfAuxEntries, if_neg hg]
      exact ha

/-- Claim C2: for every model sample site of the mean-field estimator, an
observed site contributes its scaled, summed log-density; a latent site
attempts the analytic KL divergence between the guide site's and the
model site's distributions, scaled by the guide site's scale, negated and
summed; and when the KL oracle signals not-implemented the site's
contribution falls back to the model log-probability sum minus the guide
log-probability sum — without raising an error (the dictionary is
returned for every KL oracle, provided only that latent model sites have
guide sites and guide-only sample sites are auxiliary or observed). -/
theorem claim_C2 (kl : Nat → Nat → Option JTensor) (modelTr guideTr : Trace)
    (hnd : (modelTr.map Prod.fst).Nodup)
    (hlat : ∀ name ms, (name, ms) ∈ modelTr → ms.typ = SiteKind.sample →
      ms.isObserved = false → (guideTr.lookup name).isSome)
    (haux : ∀ name gs, (name, gs) ∈ guideTr → gs.typ = SiteKind.sample →
      (modelTr.lookup name).isNone = true →
      gs.isAuxiliary = true ∨ gs.isObserved = true) :
    ∃ d, mfElboDict kl modelTr guideTr = .ok d
      ∧ ∀ name ms, (name, ms) ∈ modelTr → ms.typ = SiteKind.sample →
        (ms.isObserved = true → d.lookup name = some (logProbSum ms))
        ∧ (ms.isObserved = false → ∀ gs, guideTr.lookup name = some gs →
            (∀ klT, kl gs.fnId ms.fnId = some klT →
              d.lookup name = some (-(totalSum (scaleAndMask klT gs.scale))))
            ∧ (kl gs.fnId ms.fnId = none →
              d.lookup name = some (logProbSum ms - logProbSum gs))) := by
  obtain ⟨m, hm, hkeys, hlook⟩ := mfModelEntries_spec kl guideTr modelTr hlat
  obtain ⟨aux, ha, hauxkeys⟩ := mfAuxEntries_spec modelTr guideTr haux
  refine ⟨m ++ aux, ?_, ?_⟩
  · unfold mfElboDict
    rw [hm, ha]
  · intro name ms hmem ht
    have hmm : m.lookup name = some (mfContribVal kl guideTr name ms) :=
      hlook hnd name ms hmem ht
    have happ : (m ++ aux).lookup name = m.lookup name :=
      lookup_append_of_isSome m aux name (by rw [hmm]; rfl)
    constructor
    · intro ho
      rw [happ, hmm]
      unfold mfContribVal
      rw [if_pos ho]
    · intro ho gs hg
      constructor
      · intro klT hk
        rw [happ, hmm]
        unfold mfContribVal
        rw [if_neg (by simp [ho])]
        simp only [hg, hk]
      · intro hk
        rw [happ, hmm]
        unfold mfContribVal
        rw [if_neg (by simp [ho])]
        simp only [hg, hk]

/-- Concrete KL oracle for witnesses: implemented only for distribution 0
on the guide side. -/
def klW : Nat → Nat → Option JTensor :=
  fun a _ => if a = 0 then some (.s 1) else none

/-- Witness for C2 at a concrete model/guide pair: the observed site
`"x"` contributes its log-density sum and the latent site `"z"` gets the
negated, scaled, summed analytic KL of the oracle. -/
theorem claim_C2_witness :
    ∃ d, mfElboDict klW [("z", wLatent 1 3 true), ("x", wObs 5)]
        [("z", wLatent 0 2 true)] = .ok d
      ∧ d.lookup "x" = some (logProbSum (wObs 5))
      ∧ d.lookup "z"
          = some (-(totalSum (scaleAndMask (.s 1) (wLatent 0 2 true).scale))) := by
  have hc := claim_C2 klW [("z", wLatent 1 3 true), ("x", wObs 5)]
    [("z", wLatent 0 2 true)]
    (by simp)
    (by
      rintro name ms hm ht ho
      rcases List.mem_cons.mp hm with heq | hm
      · obtain ⟨rfl, rfl⟩ := Prod.mk.injEq .. ▸ heq
        simp [List.lookup]
      · rcases List.mem_cons.mp hm with heq | hm
        · obtain ⟨rfl, rfl⟩ := Prod.mk.injEq .. ▸ heq
          simp [wObs] at ho
        · simp at hm)
    (by
      rintro name gs hm ht hnone
      rcases List.mem_cons.mp hm with heq | hm
      · obtain ⟨rfl, rfl⟩ := Prod.mk.injEq .. ▸ heq
        simp [List.lookup] at hnone
      · simp at hm)
  obtain ⟨d, hd, hprop⟩ := hc
  refine ⟨d, hd, ?_, ?_⟩
  · exact (hprop "x" (wObs 5) (by simp) (by simp [wObs])).1 (by simp [wObs])
  · have h := (hprop "z" (wLatent 1 3 true) (by simp) (by simp [wLatent])).2
      (by simp [wLatent]) (wLatent 0 2 true) (by simp [List.lookup])
    exact h.1 (.s 1) (by simp [klW, wLatent])

theorem mutablePolicy_ms_ne_one (n : Nat) (e : LossVal)
    (ps : List (String × JTensor)) (h : n ≠ 1) :
    (mutablePolicy n e ps).mutableState = none := by
  unfold mutablePolicy
  by_cases hemp : ps.isEmpty
  · rw [if_pos hemp]
  · rw [if_neg hemp, if_neg h]

theorem mutablePolicy_elbo (n : Nat) (e : LossVal)
    (ps : List (String × JTensor)) : (mutablePolicy n e ps).elbo = e := by
  unfold mutablePolicy
  by_cases hemp : ps.isEmpty
  · rw [if_pos hemp]
  · rw [if_neg hemp]
    by_cases h1 : n = 1
    · rw [if_pos h1]
    · rw [if_neg h1]

theorem traceElboParticle_policy (cfg : TraceElboCfg)
    (gE : Key → List (String × ℚ) × Trace)
    (mE : Key → Trace → List (String × JTensor) → List (String × ℚ) × Trace)
    (msE : Key → Trace → List (String × JTensor) → List (String × ℚ))
    (k : Key) (p : ParticleOut)
    (hok : traceElboParticle cfg gE mE msE k = .ok p) :
    (cfg.multiSampleGuide = false →
      p = mutablePolicy cfg.numParticles p.elbo
        (updateAssoc (collectMutable (gE (guideSeedOf k)).2)
          (collectMutable (mE (modelSeedOf k) (gE (guideSeedOf k)).2
            (collectMutable (gE (guideSeedOf k)).2)).2)))
    ∧ (cfg.multiSampleGuide = true →
      p = mutablePolicy cfg.numParticles p.elbo
        (collectMutable (gE (guideSeedOf k)).2)) := by
  unfold traceElboParticle at hok
  cases hmulti : cfg.multiSampleGuide with
  | true =>
    rw [hmulti, if_pos rfl] at hok
    refine ⟨by intro h; exact absurd h (by simp [hmulti]), fun _ => ?_⟩
    by_cases hany : (gE (guideSeedOf k)).2.any (fun q => q.2.typ == SiteKind.sample)
    · rw [if_pos hany] at hok
      simp only [Except.ok.injEq] at hok
      rw [← hok, mutablePolicy_elbo]
    · rw [if_neg hany] at hok
      exact absurd hok (by simp)
  | false =>
    rw [hmulti] at hok
    simp only [Bool.false_eq_true, if_false] at hok
    refine ⟨fun _ => ?_, by intro h; exact absurd h (by simp [hmulti])⟩
    cases hc : checkModelGuideMatch
        (mE (modelSeedOf k) (gE (guideSeedOf k)).2
          (collectMutable (gE (guideSeedOf k)).2)).2 (gE (guideSeedOf k)).2 with
    | error e =>
      simp only [hc] at hok
      exact absurd hok (by simp)
    | ok u =>
      simp only [hc, Except.ok.injEq] at hok
      rw [← hok, mutablePolicy_elbo]

theorem meanFieldParticle_policy (cfg : MeanFieldCfg)
    (kl : Nat → Nat → Option JTensor) (gE : Key → Trace)
    (mE : Key → Trace → List (String × JTensor) → Trace)
    (k : Key) (p : ParticleOut)
    (hok : meanFieldParticle cfg kl gE mE k = .ok p) :
    p.mutableState = (mutablePolicy cfg.numParticles
      (mutablePolicy cfg.numParticles p.elbo (updateAssoc
        (collectMutable (gE (guideSeedOf k)))
        (collectMutable (mE (modelSeedOf k) (gE (guideSeedOf k))
          (collectMutable (gE (guideSeedOf k))))))).elbo
      (updateAssoc (collectMutable (gE (guideSeedOf k)))
        (collectMutable (mE (modelSeedOf k) (gE (guideSeedOf k))
          (collectMutable (gE (guideSeedOf k))))))).mutableState := by
  unfold meanFieldParticle at hok
  cases hc : checkModelGuideMatch
      (mE (modelSeedOf k) (gE (guideSeedOf k))
        (collectMutable (gE (guideSeedOf k)))) (gE (guideSeedOf k)) with
  | error e =>
    simp only [hc] at hok
    exact absurd hok (by simp)
  | ok u =>
    simp only [hc] at hok
    split at hok
    · cases hdict : mfElboDict kl
          (mE (modelSeedOf k) (gE (guideSeedOf k))
            (collectMutable (gE (guideSeedOf k)))) (gE (guideSeedOf k)) with
      | error e =>
        simp only [hdict] at hok
        exact absurd hok (by simp)
      | ok sites =>
        simp only [hdict, Except.ok.injEq] at hok
        rw [← hok]
        rcases hnp : cfg.numParticles with _ | m
        · simp [mutablePolicy]
          split <;> simp
        · by_cases hone : m + 1 = 1
          · rw [hone]
            unfold mutablePolicy
            split
            · rfl
            · rw [if_pos rfl, if_pos rfl]
          · rw [mutablePolicy_ms_ne_one _ _ _ hone,
              mutablePolicy_ms_ne_one _ _ _ hone]
    · exact absurd hok (by simp)

theorem mapExcept_mem {α ε β : Type} (f : α → Except ε β) :
    ∀ (l : List α) (bs : List β), mapExcept f l = .ok bs →
      ∀ a ∈ l, ∃ b ∈ bs, f a = .ok b := by
  intro l
  induction l with
  | nil => intro bs h a ha; simp at ha
  | cons x l ih =>
    intro bs h a ha
    rw [mapExcept] at h
    cases hx : f x with
    | error e =>
      simp only [hx] at h
      exact absurd h (by simp)
    | ok b =>
      simp only [hx] at h
      cases hrest : mapExcept f l with
      | error e =>
        simp only [hrest, Except.map] at h
        exact absurd h (by simp)
      | ok bs' =>
        simp only [hrest, Except.map, Except.ok.injEq] at h
        rcases List.mem_cons.mp ha with rfl | ha
        · exact ⟨b, by simp [← h], hx⟩
        · obtain ⟨b', hb', hfb'⟩ := ih bs' hrest a ha
          exact ⟨b', by simp [← h, hb'], hfb'⟩

theorem mapExcept_ok_forall {α ε β : Type} (f : α → Except ε β) :
    ∀ (l : List α) (bs : List β), mapExcept f l = .ok bs →
      ∀ b ∈ bs, ∃ a ∈ l, f a = .ok b := by
  intro l
  induction l with
  | nil =>
    intro bs h b hb
    simp only [mapExcept, Except.ok.injEq] at h
    rw [← h] at hb
    simp at hb
  | cons x l ih =>
    intro bs h b hb
    rw [mapExcept] at h
    cases hx : f x with
    | error e =>
      simp only [hx] at h
      exact absurd h (by simp)
    | ok b0 =>
      simp only [hx] at h
      cases hrest : mapExcept f l with
      | error e =>
        simp only [hrest, Except.map] at h
        exact absurd h (by simp)
      | ok bs' =>
        simp only [hrest, Except.map, Except.ok.injEq] at h
        rw [← h] at hb
        rcases List.mem_cons.mp hb with rfl | hb
        · exact ⟨x, by simp, hx⟩
        · obtain ⟨a, ha, hfa⟩ := ih bs' hrest b hb
          exact ⟨a, by simp [ha], hfa⟩

/-- Claim C7: the shared mutable-state policy of the plain and mean-field
estimators returns the collected mutable-site values exactly when they
are non-empty and `num_particles = 1`; for more than one particle the
values are дropped (the returned mutable state is `None`), a non-fatal
warning is emitted, and the loss is still returned.  Stated for the
policy itself, for `Trace_ELBO.loss_with_mutable_state` and for
`TraceMeanField_ELBO.loss_with_mutable_state`. -/
theorem claim_C7 :
    (∀ (n : Nat) (e : LossVal) (ps : List (String × JTensor)),
        ps.isEmpty = false →
        (n = 1 → mutablePolicy n e ps = ⟨e, some ps, []⟩)
        ∧ (n ≠ 1 → mutablePolicy n e ps = ⟨e, none, [warnMutableMsg]⟩))
    ∧ (∀ (cfg : TraceElboCfg) gE mE msE (k : Key) (r : LossMS),
        cfg.numParticles = 1 → cfg.multiSampleGuide = false →
        traceElboLossWithMS cfg gE mE msE k = .ok r →
        (updateAssoc (collectMutable (gE (guideSeedOf k)).2)
          (collectMutable (mE (modelSeedOf k) (gE (guideSeedOf k)).2
            (collectMutable (gE (guideSeedOf k)).2)).2)).isEmpty = false →
        r.mutableState = some (updateAssoc
          (collectMutable (gE (guideSeedOf k)).2)
          (collectMutable (mE (modelSeedOf k) (gE (guideSeedOf k)).2
            (collectMutable (gE (guideSeedOf k)).2)).2)))
    ∧ (∀ (cfg : TraceElboCfg) gE mE msE (k : Key) (r : LossMS),
        cfg.numParticles ≠ 1 →
        traceElboLossWithMS cfg gE mE msE k = .ok r →
        r.mutableState = none
        ∧ ∀ (k' : Key) (p : ParticleOut), k' ∈ prngSplit k cfg.numParticles →
            traceElboParticle cfg gE mE msE k' = .ok p →
            p.warns ≠ [] → r.warns ≠ [])
    ∧ (∀ (cfg : MeanFieldCfg) kl gE mE (k : Key) (r : LossMS),
        cfg.numParticles = 1 →
        meanFieldLossWithMS cfg kl gE mE k = .ok r →
        (updateAssoc (collectMutable (gE (guideSeedOf k)))
          (collectMutable (mE (modelSeedOf k) (gE (guideSeedOf k))
            (collectMutable (gE (guideSeedOf k)))))).isEmpty = false →
        r.mutableState = some (updateAssoc
          (collectMutable (gE (guideSeedOf k)))
          (collectMutable (mE (modelSeedOf k) (gE (guideSeedOf k))
            (collectMutable (gE (guideSeedOf k)))))))
    ∧ (∀ (cfg : MeanFieldCfg) kl gE mE (k : Key) (r : LossMS),
        cfg.numParticles ≠ 1 →
        meanFieldLossWithMS cfg kl gE mE k = .ok r →
        r.mutableState = none) := by
  have hpolicy : ∀ (n : Nat) (e : LossVal) (ps : List (String × JTensor)),
      ps.isEmpty = false →
      (n = 1 → mutablePolicy n e ps = ⟨e, some ps, []⟩)
      ∧ (n ≠ 1 → mutablePolicy n e ps = ⟨e, none, [warnMutableMsg]⟩) := by
    intro n e ps hne
    constructor
    · intro h1
      unfold mutablePolicy
      rw [hne]
      simp only [Bool.false_eq_true, if_false]
      rw [if_pos h1]
    · intro h1
      unfold mutablePolicy
      rw [hne]
      simp only [Bool.false_eq_true, if_false]
      rw [if_neg h1]
  refine ⟨hpolicy, ?_, ?_, ?_, ?_⟩
  · intro cfg gE mE msE k r hnp hms hok hne
    unfold traceElboLossWithMS at hok
    rw [if_pos hnp] at hok
    cases hp : traceElboParticle cfg gE mE msE k with
    | error e => rw [hp] at hok; exact absurd hok (by simp)
    | ok p =>
      simp only [hp, Except.ok.injEq] at hok
      have hpol := (traceElboParticle_policy cfg gE mE msE k p hp).1 hms
      have hthis := (hpolicy cfg.numParticles p.elbo _ hne).1 hnp
      rw [← hok]
      show p.mutableState = some _
      rw [hpol, hthis]
  · intro cfg gE mE msE k r hnp hok
    unfold traceElboLossWithMS at hok
    rw [if_neg hnp] at hok
    cases hmap : mapExcept (traceElboParticle cfg gE mE msE)
        (prngSplit k cfg.numParticles) with
    | error e => rw [hmap] at hok; exact absurd hok (by simp)
    | ok ps =>
      simp only [hmap, Except.ok.injEq] at hok
      constructor
      · rw [← hok]
        have hall : ∀ m ∈ ps.map (fun p => p.mutableState), m = none := by
          intro m hm
          rcases List.mem_map.mp hm with ⟨p, hp, rfl⟩
          obtain ⟨k', hk', hfk'⟩ :=
            mapExcept_ok_forall _ _ _ hmap p hp
          have hpol := traceElboParticle_policy cfg gE mE msE k' p hfk'
          cases hmulti : cfg.multiSampleGuide with
          | true =>
            rw [hpol.2 hmulti]
            exact mutablePolicy_ms_ne_one _ _ _ hnp
          | false =>
            rw [hpol.1 hmulti]
            exact mutablePolicy_ms_ne_one _ _ _ hnp
        unfold vmapMutable
        cases hps : ps.map (fun p => p.mutableState) with
        | nil => rfl
        | cons m ms =>
          have := hall m (by simp [hps])
          simp [this]
      · intro k' p hk' hfk' hw
        rw [← hok]
        obtain ⟨b, hb, hfb⟩ := mapExcept_mem _ _ _ hmap k' hk'
        rw [hfk'] at hfb
        have hbp : p = b := by
          have := hfb
          simp only [Except.ok.injEq] at this
          exact this
        intro hflat
        have hmem : p.warns ∈ ps.map (fun q => q.warns) :=
          List.mem_map.mpr ⟨b, hb, by rw [hbp]⟩
        obtain ⟨y, hy⟩ := List.exists_mem_of_ne_nil p.warns hw
        have : y ∈ (ps.map (fun q => q.warns)).flatten :=
          List.mem_flatten.mpr ⟨p.warns, hmem, hy⟩
        have hflat2 : (ps.map (fun q => q.warns)).flatten = ([] : List String) :=
          hflat
        rw [hflat2] at this
        simp at this
  · intro cfg kl gE mE k r hnp hok hne
    unfold meanFieldLossWithMS at hok
    rw [if_pos hnp] at hok
    cases hp : meanFieldParticle cfg kl gE mE k with
    | error e => rw [hp] at hok; exact absurd hok (by simp)
    | ok p =>
      simp only [hp, Except.ok.injEq] at hok
      have hpol := meanFieldParticle_policy cfg kl gE mE k p hp
      rw [← hok]
      simp only [hpol]
      rw [((hpolicy cfg.numParticles _ _ hne).1 hnp)]
  · intro cfg kl gE mE k r hnp hok
    unfold meanFieldLossWithMS at hok
    rw [if_neg hnp] at hok
    cases hmap : mapExcept (meanFieldParticle cfg kl gE mE)
        (prngSplit k cfg.numParticles) with
    | error e => rw [hmap] at hok; exact absurd hok (by simp)
    | ok ps =>
      simp only [hmap, Except.ok.injEq] at hok
      rw [← hok]
      have hall : ∀ m ∈ ps.map (fun p => p.mutableState), m = none := by
        intro m hm
        rcases List.mem_map.mp hm with ⟨p, hp, rfl⟩
        obtain ⟨k', hk', hfk'⟩ := mapExcept_ok_forall _ _ _ hmap p hp
        rw [meanFieldParticle_policy cfg kl gE mE k' p hfk']
        exact mutablePolicy_ms_ne_one _ _ _ hnp
      unfold vmapMutable
      cases hps : ps.map (fun p => p.mutableState) with
      | nil => rfl
      | cons m ms =>
        have := hall m (by simp [hps])
        simp [this]

/-- Concrete guide execution with a mutable site for the C7 witness. -/
def gExW7 : Key → List (String × ℚ) × Trace :=
  fun _ => ([("z", 2)], [("z", wLatent 0 2 true), ("m", wMut 4)])

/-- Concrete guide-trace execution for the mean-field part of the C7
witness. -/
def gTrExW7 : Key → Trace :=
  fun _ => [("z", wLatent 0 2 true), ("m", wMut 4)]

/-- Concrete model-trace execution for the mean-field part of the C7
witness. -/
def mTrExW7 : Key → Trace → List (String × JTensor) → Trace :=
  fun _ _ _ => [("z", wLatent 1 3 true), ("x", wObs 5)]

/-- Witness for C7: with one particle the collected mutable value of site
`"m"` is returned; with two particles the mutable state is dropped to
`None`, a warning is emitted, and the loss is still returned; the
mean-field estimator returns the collected value for one particle too. -/
theorem claim_C7_witness :
    (∃ r, traceElboLossWithMS ⟨1, false, true⟩ gExW7 mExW msExW 0 = .ok r
      ∧ r.mutableState = some [("m", JTensor.s 4)])
    ∧ (∃ r, traceElboLossWithMS ⟨2, false, true⟩ gExW7 mExW msExW 0 = .ok r
      ∧ r.mutableState = none ∧ r.warns ≠ [])
    ∧ (∃ r, meanFieldLossWithMS ⟨1, true⟩ klW gTrExW7 mTrExW7 0 = .ok r
      ∧ r.mutableState = some [("m", JTensor.s 4)]) := by
  refine ⟨?_, ?_, ?_⟩
  · have hrun : traceElboLossWithMS ⟨1, false, true⟩ gExW7 mExW msExW 0
        = .ok ⟨.scalar (-((5 - 0) + ((3 - 2) + 0))),
               some [("m", JTensor.s 4)], []⟩ := rfl
    refine ⟨_, hrun, ?_⟩
    have h := claim_C7.2.1 ⟨1, false, true⟩ gExW7 mExW msExW 0 _ rfl rfl hrun rfl
    exact h.trans rfl
  · have hrun : traceElboLossWithMS ⟨2, false, true⟩ gExW7 mExW msExW 0
        = .ok ⟨.scalar (-((((5 - 0) + ((3 - 2) + 0))
                + (((5 - 0) + ((3 - 2) + 0)) + 0)) / ((2 : Nat) : ℚ))),
               none, [warnMutableMsg, warnMutableMsg]⟩ := rfl
    refine ⟨_, hrun, ?_, ?_⟩
    · exact (claim_C7.2.2.1 ⟨2, false, true⟩ gExW7 mExW msExW 0 _
        (by norm_num) hrun).1
    · have hp : traceElboParticle ⟨2, false, true⟩ gExW7 mExW msExW (Nat.pair 0 0)
          = .ok ⟨.scalar ((5 - 0) + ((3 - 2) + 0)), none, [warnMutableMsg]⟩ := rfl
      exact (claim_C7.2.2.1 ⟨2, false, true⟩ gExW7 mExW msExW 0 _
        (by norm_num) hrun).2 (Nat.pair 0 0) _ (by simp [prngSplit]) hp (by simp)
  · have hrun : meanFieldLossWithMS ⟨1, true⟩ klW gTrExW7 mTrExW7 0
        = .ok ⟨.scalar (-((-(totalSum (JTensor.s 1)))
                + (totalSum (JTensor.s 5) + 0))),
               some [("m", JTensor.s 4)], []⟩ := rfl
    refine ⟨_, hrun, ?_⟩
    have h := claim_C7.2.2.2.1 ⟨1, true⟩ klW gTrExW7 mTrExW7 0 _ rfl hrun rfl
    exact h.trans rfl

end NumpyroElbo
